import Mathlib

/-!
# Merge sort of `mergesort.c`: embedding and verification

The C functions `merge`, `mergesort_seq` and `mergesort_par` are embedded as
functions on an explicit array state.

* The array `int *arr` is a `List` of cells; an access outside the array is
  undefined behaviour in C and makes the embedded function return `none`.
* Indices are C `int`s: mathematical integers that must stay in
  `[INT_MIN, INT_MAX]`.  Signed overflow is undefined behaviour in C, so every
  arithmetic operation on an index is checked by `chk`, which returns `none`
  when the exact result does not fit a 32-bit `int`.  The length `n` of the
  array is an `int` as well (`int N` in `main`), which the theorems state as
  `arr.length ≤ INT_MAX`.
* The cells hold `int`s, which are only copied and compared; they are
  embedded as integers.
* The scratch buffers obtained from `malloc` start uninitialised (`none` in
  every cell); reading an uninitialised cell returns `none`.  Allocation itself
  is assumed to succeed for a non-negative size; `free` has no effect on the
  array.
* The two OpenMP tasks of `mergesort_par` are run one after the other, the
  `taskwait` being the point where both have returned.

A result `some out` therefore means: the call returns, without any
out-of-bounds access or overflow, and leaves `out` in the array.
-/

namespace MergeSortC

/-! ## Machine integers and memory -/

/-- Smallest value of a 32-bit C `int`. -/
def INT_MIN : Int := -2147483648

/-- Largest value of a 32-bit C `int`. -/
def INT_MAX : Int := 2147483647

/-- Result of an `int` operation whose exact value is `x`: defined only when
`x` is representable. -/
def chk (x : Int) : Option Int :=
  if INT_MIN ≤ x ∧ x ≤ INT_MAX then some x else none

/-- Read of `a[i]`. -/
def rd {α : Type} (a : List α) (i : Int) : Option α :=
  if 0 ≤ i then a[i.toNat]? else none

/-- Write `a[i] = v`. -/
def wr {α : Type} (a : List α) (i : Int) (v : α) : Option (List α) :=
  if 0 ≤ i ∧ i < a.length then some (a.set i.toNat v) else none

/-- Scratch buffer of `n` cells as returned by `malloc(n * sizeof(int))`. -/
def malloc (α : Type) (n : Int) : Option (List (Option α)) :=
  if 0 ≤ n then some (List.replicate n.toNat none) else none

/-- Read of a scratch cell `buf[i]`. -/
def rdBuf {α : Type} (buf : List (Option α)) (i : Int) : Option α :=
  (rd buf i).join

/-! ## `merge` -/

/-- The loops `for (int i = 0; i < n; i++) buf[i] = arr[addr(i)];` of `merge`,
started at counter `i`: lines 20-21 with `addr(i) = left + i`, lines 22-23
with `addr(j) = mid + 1 + j`. -/
def copy_in {α : Type} (arr : List α) (addr : Int → Option Int) (n : Int) (i : Int)
    (buf : List (Option α)) : Option (List (Option α)) :=
  if h : i < n then do
    let idx ← addr i
    let v ← rd arr idx
    let buf1 ← wr buf i (some v)
    let _ ← chk (i + 1)
    copy_in arr addr n (i + 1) buf1
  else some buf
termination_by (n - i).toNat
decreasing_by omega

/-- The loop of lines 26-31:
`while (i < n1 && j < n2) { if (L[i] <= R[j]) arr[k++] = L[i++]; else arr[k++] = R[j++]; }`.
Elements are compared through `val`, which is the identity for the `int`
array of the program. -/
def merge_loop {α : Type} (val : α → Int) (L R : List (Option α)) (n1 n2 : Int)
    (arr : List α) (i j k : Int) : Option (List α × Int × Int × Int) :=
  if h : i < n1 ∧ j < n2 then do
    let x ← rdBuf L i
    let y ← rdBuf R j
    if val x ≤ val y then do
      let arr1 ← wr arr k x
      let _ ← chk (k + 1)
      let _ ← chk (i + 1)
      merge_loop val L R n1 n2 arr1 (i + 1) j (k + 1)
    else do
      let arr1 ← wr arr k y
      let _ ← chk (k + 1)
      let _ ← chk (j + 1)
      merge_loop val L R n1 n2 arr1 i (j + 1) (k + 1)
  else some (arr, i, j, k)
termination_by (n1 - i).toNat + (n2 - j).toNat
decreasing_by all_goals omega

/-- The loops `while (i < n) arr[k++] = buf[i++];` of lines 32-33 (`buf = L`)
and 34-35 (`buf = R`). -/
def copy_back {α : Type} (buf : List (Option α)) (n : Int) (arr : List α) (i k : Int) :
    Option (List α × Int) :=
  if h : i < n then do
    let x ← rdBuf buf i
    let arr1 ← wr arr k x
    let _ ← chk (k + 1)
    let _ ← chk (i + 1)
    copy_back buf n arr1 (i + 1) (k + 1)
  else some (arr, k)
termination_by (n - i).toNat
decreasing_by omega

/-- The body of `merge` (lines 10-39) over an arbitrary cell type; `val` reads
the `int` a cell holds. -/
def merge_gen {α : Type} (val : α → Int) (arr : List α) (left mid right : Int) :
    Option (List α) := do
  let d1 ← chk (mid - left)
  let n1 ← chk (d1 + 1)
  let n2 ← chk (right - mid)
  let L0 ← malloc α n1
  let R0 ← malloc α n2
  let L ← copy_in arr (fun i => chk (left + i)) n1 0 L0
  let R ← copy_in arr (fun j => do let b ← chk (mid + 1); chk (b + j)) n2 0 R0
  let (arr1, i, j, k) ← merge_loop val L R n1 n2 arr 0 0 left
  let (arr2, k2) ← copy_back L n1 arr1 i k
  let (arr3, _) ← copy_back R n2 arr2 j k2
  some arr3

/-- The function `void merge(int *arr, int left, int mid, int right)`
(lines 10-39): `merge_gen` on `int` cells. -/
def merge (arr : List Int) (left mid right : Int) : Option (List Int) :=
  merge_gen id arr left mid right

/-- Reference two-way merge of two runs, as the specification words it: take
the left head whenever left head <= right head, otherwise the right head;
when one run is exhausted, copy the remainder of the other in order. -/
def ref_merge {α : Type} (val : α → Int) : List α → List α → List α
  | [], r => r
  | x :: l, [] => x :: l
  | x :: l, y :: r =>
    if val x ≤ val y then x :: ref_merge val l (y :: r)
    else y :: ref_merge val (x :: l) r
termination_by l r => l.length + r.length

/-! ## `mergesort_seq` and `mergesort_par` -/

/-- The expression `left + (right - left) / 2`. -/
def midpoint (left right : Int) : Option Int := do
  let d ← chk (right - left)
  chk (left + d.tdiv 2)

/-- The function `void mergesort_seq(int *arr, int left, int right)`
(lines 42-49). -/
def mergesort_seq (arr : List Int) (left right : Int) : Option (List Int) :=
  if h : left < right then
    match hm : midpoint left right with
    | none => none
    | some mid => do
      let a1 ← mergesort_seq arr left mid
      let _ ← chk (mid + 1)
      let a2 ← mergesort_seq a1 (mid + 1) right
      merge a2 left mid right
  else some arr
termination_by (right - left).toNat
decreasing_by
  all_goals
    simp only [midpoint, chk, Option.bind_eq_bind] at hm
    split at hm
    · simp only [Option.some_bind] at hm
      split at hm
      · have hd : (right - left).tdiv 2 = (right - left) / 2 :=
          Int.tdiv_eq_ediv (by omega) (by omega)
        simp only [Option.some.injEq] at hm
        omega
      · simp at hm
    · simp at hm

/-- The function
`void mergesort_par(int *arr, int left, int right, int threshold)`
(lines 52-71).  The task on `[left, mid]` is run first, the task on
`[mid + 1, right]` second; the `merge` follows the `taskwait`. -/
def mergesort_par (arr : List Int) (left right threshold : Int) : Option (List Int) :=
  if h : left < right then do
    let d ← chk (right - left)
    if d < threshold then
      mergesort_seq arr left right
    else
      match hm : midpoint left right with
      | none => none
      | some mid => do
        let a1 ← mergesort_par arr left mid threshold
        let _ ← chk (mid + 1)
        let a2 ← mergesort_par a1 (mid + 1) right threshold
        merge a2 left mid right
  else some arr
termination_by (right - left).toNat
decreasing_by
  all_goals
    simp only [midpoint, chk, Option.bind_eq_bind] at hm
    split at hm
    · simp only [Option.some_bind] at hm
      split at hm
      · have hd : (right - left).tdiv 2 = (right - left) / 2 :=
          Int.tdiv_eq_ediv (by omega) (by omega)
        simp only [Option.some.injEq] at hm
        omega
      · simp at hm
    · simp at hm

/-! ## Instrumented runs: the calls of `merge` made by a sort -/

/-- One call `merge(arr, left, mid, right)`, with the array contents at the
moment of the call. -/
structure MergeCall where
  /-- Contents of the array when `merge` is entered. -/
  arr : List Int
  /-- Argument `left`. -/
  left : Int
  /-- Argument `mid`. -/
  mid : Int
  /-- Argument `right`. -/
  right : Int

/-- The function `mergesort_seq` (lines 42-49), returning in addition the list
of the calls of `merge` it made, in execution order. -/
def mergesort_seq_trace (arr : List Int) (left right : Int) :
    Option (List Int × List MergeCall) :=
  if h : left < right then
    match hm : midpoint left right with
    | none => none
    | some mid => do
      let r1 ← mergesort_seq_trace arr left mid
      let _ ← chk (mid + 1)
      let r2 ← mergesort_seq_trace r1.1 (mid + 1) right
      let a3 ← merge r2.1 left mid right
      some (a3, r1.2 ++ r2.2 ++ [MergeCall.mk r2.1 left mid right])
  else some (arr, [])
termination_by (right - left).toNat
decreasing_by
  all_goals
    simp only [midpoint, chk, Option.bind_eq_bind] at hm
    split at hm
    · simp only [Option.some_bind] at hm
      split at hm
      · have hd : (right - left).tdiv 2 = (right - left) / 2 :=
          Int.tdiv_eq_ediv (by omega) (by omega)
        simp only [Option.some.injEq] at hm
        omega
      · simp at hm
    · simp at hm

/-- The function `mergesort_par` (lines 52-71), returning in addition the list
of the calls of `merge` made by it and by the calls it makes. -/
def mergesort_par_trace (arr : List Int) (left right threshold : Int) :
    Option (List Int × List MergeCall) :=
  if h : left < right then do
    let d ← chk (right - left)
    if d < threshold then
      mergesort_seq_trace arr left right
    else
      match hm : midpoint left right with
      | none => none
      | some mid => do
        let r1 ← mergesort_par_trace arr left mid threshold
        let _ ← chk (mid + 1)
        let r2 ← mergesort_par_trace r1.1 (mid + 1) right threshold
        let a3 ← merge r2.1 left mid right
        some (a3, r1.2 ++ r2.2 ++ [MergeCall.mk r2.1 left mid right])
  else some (arr, [])
termination_by (right - left).toNat
decreasing_by
  all_goals
    simp only [midpoint, chk, Option.bind_eq_bind] at hm
    split at hm
    · simp only [Option.some_bind] at hm
      split at hm
      · have hd : (right - left).tdiv 2 = (right - left) / 2 :=
          Int.tdiv_eq_ediv (by omega) (by omega)
        simp only [Option.some.injEq] at hm
        omega
      · simp at hm
    · simp at hm

/-- The recursion of `mergesort_seq` and of `mergesort_par`: a call on the
range `p = (left, right)` with `left < right` calls itself on
`c = (left, mid)` and on `c = (mid + 1, right)`. -/
def rec_call (p c : Int × Int) : Prop :=
  p.1 < p.2 ∧ ∃ mid, midpoint p.1 p.2 = some mid ∧
    (c = (p.1, mid) ∨ (chk (mid + 1) = some (mid + 1) ∧ c = (mid + 1, p.2)))

/-! ## Vocabulary of the statements -/

/-- The cells `arr[left..right]`, bounds included. -/
def slice {α : Type} (arr : List α) (left right : Int) : List α :=
  (arr.drop left.toNat).take (right + 1 - left).toNat

/-- The segment `arr[left..right]` is non-decreasing:
`arr[i] <= arr[i+1]` for every `i` with `left <= i < right`. -/
def nondecreasing (arr : List Int) (left right : Int) : Prop :=
  ∀ i : Int, left ≤ i → i < right →
    ∃ a ∈ rd arr i, ∃ b ∈ rd arr (i + 1), a ≤ b

instance (arr : List Int) (left right : Int) : Decidable (nondecreasing arr left right) := by
  unfold nondecreasing; infer_instance

/-- The precondition of `merge` at a call `c` made while sorting `[lo, hi]`:
`left <= mid < right`, both scratch lengths `n1 = mid - left + 1` and
`n2 = right - mid` at least 1, the range inside `[lo, hi]`, and both runs of
the array as it is at the call non-decreasing. -/
def call_ok (lo hi : Int) (c : MergeCall) : Prop :=
  c.left ≤ c.mid ∧ c.mid < c.right ∧
  1 ≤ c.mid - c.left + 1 ∧ 1 ≤ c.right - c.mid ∧
  lo ≤ c.left ∧ c.right ≤ hi ∧
  nondecreasing c.arr c.left c.mid ∧ nondecreasing c.arr (c.mid + 1) c.right

/-- The array operation `f`, run on `arr`, is confined to the range `[lo, hi]`:
it returns an array of the same length, changes no cell outside `[lo, hi]`,
and what it leaves in `[lo, hi]` depends only on what `[lo, hi]` held: run on
any array of that length with the same cells in `[lo, hi]`, it leaves the
same cells there. -/
def local_to (f : List Int → Option (List Int)) (arr : List Int) (lo hi : Int) : Prop :=
  ∃ out, f arr = some out ∧ out.length = arr.length ∧
    (∀ k : Int, k < lo ∨ hi < k → rd out k = rd arr k) ∧
    ∀ arr2 : List Int, arr2.length = arr.length →
      (∀ k : Int, lo ≤ k → k ≤ hi → rd arr2 k = rd arr k) →
      ∃ out2, f arr2 = some out2 ∧ ∀ k : Int, lo ≤ k → k ≤ hi → rd out2 k = rd out k

/-- Cells tagged with the index they come from, counted from `n`. -/
def tagFrom (n : Int) : List Int → List (Int × Int)
  | [] => []
  | v :: vs => (v, n) :: tagFrom (n + 1) vs

/-- The array in which every cell `arr[i]` carries its index: `(arr[i], i)`. -/
def tag (arr : List Int) : List (Int × Int) := tagFrom 0 arr

/-! ## Basic facts about the memory model -/

theorem chk_eq_some {x : Int} (h1 : INT_MIN ≤ x) (h2 : x ≤ INT_MAX) : chk x = some x := by
  simp [chk, h1, h2]

theorem chk_natCast {k : Nat} (h : (k : Int) ≤ INT_MAX) : chk (k : Int) = some (k : Int) := by
  apply chk_eq_some _ h
  simp only [INT_MIN]; omega

theorem rd_natCast {α : Type} (a : List α) (k : Nat) : rd a (k : Int) = a[k]? := by
  simp [rd]

theorem wr_natCast {α : Type} (a : List α) (k : Nat) (v : α) (h : k < a.length) :
    wr a (k : Int) v = some (a.set k v) := by
  simp [wr, h]

theorem rdBuf_natCast {α : Type} (l : List α) (k : Nat) :
    rdBuf (l.map some) (k : Int) = l[k]? := by
  simp only [rdBuf, rd_natCast, List.getElem?_map]
  cases l[k]? <;> rfl

theorem set_append_length {α : Type} (a : List α) (x y : α) (b : List α) :
    (a ++ x :: b).set a.length y = a ++ y :: b := by
  induction a with
  | nil => rfl
  | cons c a ih => simp [ih]

theorem getElem?_append_length {α : Type} (a : List α) (x : α) (b : List α) :
    (a ++ x :: b)[a.length]? = some x := by
  induction a with
  | nil => simp
  | cons c a ih => simpa using ih

/-! ## The loops of `merge` -/

theorem copy_in_spec {α : Type} (pre post : List α) (addr : Int → Option Int)
    (todo done : List α) (buf : List (Option α)) (base n i : Int)
    (hmax : ((pre ++ done ++ todo ++ post).length : Int) ≤ INT_MAX)
    (haddr : ∀ p : Int, 0 ≤ p → p < n → addr p = some (base + p))
    (hbase : base = pre.length) (hi : i = done.length)
    (hn : n = (done.length : Int) + todo.length)
    (hbuf : buf = done.map some ++ List.replicate todo.length none) :
    copy_in (pre ++ done ++ todo ++ post) addr n i buf = some ((done ++ todo).map some) := by
  induction todo generalizing done buf i with
  | nil =>
    rw [copy_in]
    have : ¬ (i < n) := by simp at hn; omega
    simp [this, hbuf]
  | cons x t ih =>
    rw [copy_in]
    have hlt : i < n := by simp at hn; omega
    have hidx : base + i = ((pre ++ done).length : Nat) := by simp [hbase, hi]
    have h1 : addr i = some (base + i) := haddr i (by omega) hlt
    have h2 : rd (pre ++ done ++ x :: t ++ post) (base + i) = some x := by
      rw [hidx, rd_natCast]
      have := getElem?_append_length (pre ++ done) x (t ++ post)
      simpa using this
    have h3 : wr buf i (some x) = some ((done ++ [x]).map some ++ List.replicate t.length none) := by
      subst hbuf
      rw [hi, wr_natCast]
      · have := set_append_length (done.map some) none (some x)
          (List.replicate t.length (none : Option α))
        simp only [List.length_map] at this
        simp [List.replicate_succ, this]
      · simp
    have h4 : chk (i + 1) = some (i + 1) := by
      have : i + 1 = ((done.length + 1 : Nat) : Int) := by simp [hi]
      rw [this]; apply chk_natCast
      simp only [List.length_append, Nat.cast_add, List.length_cons] at hmax ⊢; omega
    simp only [hlt, dite_true, Option.bind_eq_bind, h1, h2, h3, h4, Option.some_bind]
    have key := ih (done ++ [x]) ((done ++ [x]).map some ++ List.replicate t.length none)
      (i + 1) (by simpa using hmax) (by simp [hi]) (by simp [hn]; omega) rfl
    simpa using key

theorem copy_back_spec {α : Type} (post : List α) (todo done pre junk : List α)
    (n i k : Int)
    (hmax : ((pre ++ junk ++ post).length : Int) ≤ INT_MAX)
    (hnmax : n ≤ INT_MAX)
    (hjunk : junk.length = todo.length)
    (hi : i = done.length) (hn : n = (done.length : Int) + todo.length)
    (hk : k = pre.length) :
    copy_back ((done ++ todo).map some) n (pre ++ junk ++ post) i k
      = some (pre ++ todo ++ post, k + todo.length) := by
  induction todo generalizing done pre junk i k with
  | nil =>
    rw [copy_back]
    have : ¬ (i < n) := by simp at hn; omega
    have hj : junk = [] := List.length_eq_zero.mp (by simpa using hjunk)
    simp [this, hj]
  | cons x t ih =>
    rw [copy_back]
    have hlt : i < n := by simp at hn; omega
    obtain ⟨y, junk1, rfl⟩ : ∃ y junk1, junk = y :: junk1 := by
      cases junk with
      | nil => simp at hjunk
      | cons y junk1 => exact ⟨y, junk1, rfl⟩
    have h1 : rdBuf ((done ++ x :: t).map some) i = some x := by
      rw [hi, rdBuf_natCast]
      exact getElem?_append_length done x t
    have h2 : wr (pre ++ y :: junk1 ++ post) k x = some ((pre ++ [x]) ++ junk1 ++ post) := by
      rw [hk, wr_natCast]
      · have := set_append_length pre y x (junk1 ++ post)
        simp only [List.append_assoc, List.cons_append, List.nil_append] at this ⊢
        rw [this]
      · simp
    have h3 : chk (k + 1) = some (k + 1) := by
      have : k + 1 = ((pre.length + 1 : Nat) : Int) := by simp [hk]
      rw [this]; apply chk_natCast
      simp only [List.length_append, Nat.cast_add, List.length_cons] at hmax ⊢; omega
    have h4 : chk (i + 1) = some (i + 1) := by
      have : i + 1 = ((done.length + 1 : Nat) : Int) := by simp [hi]
      rw [this]; apply chk_natCast
      simp only [List.length_cons, Nat.cast_add] at hn ⊢; omega
    simp only [hlt, dite_true, Option.bind_eq_bind, h1, h2, h3, h4, Option.some_bind]
    have key := ih (done ++ [x]) (pre ++ [x]) junk1 (i + 1) (k + 1)
      (by simpa using hmax) (by simpa using hjunk) (by simp [hi])
      (by simp [hn]; omega) (by simp [hk])
    simp only [List.append_assoc, List.cons_append, List.nil_append] at key ⊢
    rw [key]
    simp; omega

theorem ref_merge_nil_left {α : Type} (val : α → Int) (r : List α) :
    ref_merge val [] r = r := by
  rw [ref_merge]

theorem ref_merge_nil_right {α : Type} (val : α → Int) (l : List α) :
    ref_merge val l [] = l := by
  cases l <;> rw [ref_merge]

theorem ref_merge_cons_cons {α : Type} (val : α → Int) (x y : α) (l r : List α) :
    ref_merge val (x :: l) (y :: r)
      = if val x ≤ val y then x :: ref_merge val l (y :: r)
        else y :: ref_merge val (x :: l) r := by
  rw [ref_merge]

/-- From any reachable state of the main loop, the three write-back loops
together leave the reference merge of the unread parts of the two scratch
buffers in the cells `k, k+1, ...`. -/
theorem merge_loop_spec {α : Type} (val : α → Int) (post : List α) (m : Nat) :
    ∀ (lt rt ld rd pre junk : List α) (n1 n2 i j k : Int),
    lt.length + rt.length = m →
    ((pre ++ junk ++ post).length : Int) ≤ INT_MAX →
    n1 ≤ INT_MAX → n2 ≤ INT_MAX →
    junk.length = lt.length + rt.length →
    i = ld.length → n1 = (ld.length : Int) + lt.length →
    j = rd.length → n2 = (rd.length : Int) + rt.length →
    k = pre.length →
    ∃ arr1 i1 j1 k1 arr2 k2 k3,
      merge_loop val ((ld ++ lt).map some) ((rd ++ rt).map some) n1 n2
          (pre ++ junk ++ post) i j k = some (arr1, i1, j1, k1) ∧
      copy_back ((ld ++ lt).map some) n1 arr1 i1 k1 = some (arr2, k2) ∧
      copy_back ((rd ++ rt).map some) n2 arr2 j1 k2
        = some (pre ++ ref_merge val lt rt ++ post, k3) := by
  induction m with
  | zero =>
    intro lt rt ld rd pre junk n1 n2 i j k hm hmax hn1 hn2 hjunk hi hn1e hj hn2e hk
    have hlt : lt = [] := List.length_eq_zero.mp (by omega)
    have hrt : rt = [] := List.length_eq_zero.mp (by omega)
    subst hlt hrt
    have hjk : junk = [] := List.length_eq_zero.mp (by simpa using hjunk)
    subst hjk
    refine ⟨pre ++ [] ++ post, i, j, k, pre ++ [] ++ post, k, k, ?_, ?_, ?_⟩
    · rw [merge_loop]
      have : ¬ (i < n1 ∧ j < n2) := by simp at hn1e; omega
      simp [this]
    · rw [copy_back]
      have : ¬ (i < n1) := by simp at hn1e; omega
      simp [this]
    · rw [copy_back]
      have : ¬ (j < n2) := by simp at hn2e; omega
      simp [this, ref_merge_nil_left]
  | succ m ih =>
    intro lt rt ld rd pre junk n1 n2 i j k hm hmax hn1 hn2 hjunk hi hn1e hj hn2e hk
    cases lt with
    | nil =>
      refine ⟨pre ++ junk ++ post, i, j, k, pre ++ junk ++ post, k, k + rt.length, ?_, ?_, ?_⟩
      · rw [merge_loop]
        have : ¬ (i < n1 ∧ j < n2) := by simp at hn1e; omega
        simp [this]
      · rw [copy_back]
        have : ¬ (i < n1) := by simp at hn1e; omega
        simp [this]
      · rw [ref_merge_nil_left]
        exact copy_back_spec post rt rd pre junk n2 j k hmax hn2 (by simpa using hjunk) hj hn2e hk
    | cons x l =>
      cases rt with
      | nil =>
        refine ⟨pre ++ junk ++ post, i, j, k, pre ++ (x :: l) ++ post,
          k + (x :: l).length, k + (x :: l).length, ?_, ?_, ?_⟩
        · rw [merge_loop]
          have : ¬ (i < n1 ∧ j < n2) := by simp at hn2e; omega
          simp [this]
        · exact copy_back_spec post (x :: l) ld pre junk n1 i k hmax hn1
            (by simpa using hjunk) hi hn1e hk
        · rw [copy_back]
          have : ¬ (j < n2) := by simp at hn2e; omega
          simp [this, ref_merge_nil_right]
      | cons y r =>
        obtain ⟨z, junk1, rfl⟩ : ∃ z junk1, junk = z :: junk1 := by
          cases junk with
          | nil => simp at hjunk; omega
          | cons z junk1 => exact ⟨z, junk1, rfl⟩
        have hcond : i < n1 ∧ j < n2 := by
          simp only [List.length_cons, Nat.cast_add, Nat.cast_one] at hn1e hn2e; omega
        have h1 : rdBuf ((ld ++ x :: l).map some) i = some x := by
          rw [hi, rdBuf_natCast]; exact getElem?_append_length ld x l
        have h2 : rdBuf ((rd ++ y :: r).map some) j = some y := by
          rw [hj, rdBuf_natCast]; exact getElem?_append_length rd y r
        have hw : ∀ v : α, wr (pre ++ z :: junk1 ++ post) k v
            = some ((pre ++ [v]) ++ junk1 ++ post) := by
          intro v
          rw [hk, wr_natCast]
          · have := set_append_length pre z v (junk1 ++ post)
            simp only [List.append_assoc, List.cons_append, List.nil_append] at this ⊢
            rw [this]
          · simp
        have h3 : chk (k + 1) = some (k + 1) := by
          have : k + 1 = ((pre.length + 1 : Nat) : Int) := by simp [hk]
          rw [this]; apply chk_natCast
          simp only [List.length_append, Nat.cast_add, List.length_cons] at hmax ⊢; omega
        have h4 : chk (i + 1) = some (i + 1) := by
          apply chk_eq_some <;> (try simp only [INT_MIN]) <;> omega
        have h5 : chk (j + 1) = some (j + 1) := by
          apply chk_eq_some <;> (try simp only [INT_MIN]) <;> omega
        rw [merge_loop, ref_merge_cons_cons]
        simp only [hcond, and_self, dite_true, Option.bind_eq_bind, h1, h2, Option.some_bind]
        by_cases hxy : val x ≤ val y
        · simp only [hxy, if_true, hw, h3, h4, Option.some_bind]
          have key := ih l (y :: r) (ld ++ [x]) rd (pre ++ [x]) junk1 n1 n2 (i + 1) j (k + 1)
            (by simp at hm ⊢; omega) (by simpa using hmax) hn1 hn2
            (by simp at hjunk ⊢; omega) (by simp [hi]) (by simp [hn1e]; omega) hj hn2e
            (by simp [hk])
          simpa using key
        · simp only [hxy, if_false, hw, h3, h5, Option.some_bind]
          have key := ih (x :: l) r ld (rd ++ [y]) (pre ++ [y]) junk1 n1 n2 i (j + 1) (k + 1)
            (by simp at hm ⊢; omega) (by simpa using hmax) hn1 hn2
            (by simp at hjunk ⊢; omega) hi hn1e (by simp [hj]) (by simp [hn2e]; omega)
            (by simp [hk])
          simpa using key

/-- What `merge` computes: on an array `pre ++ l ++ r ++ post` whose two runs
are `l` and `r`, it returns `pre ++ ref_merge l r ++ post`. -/
theorem merge_gen_decomp {α : Type} (val : α → Int) (pre l r post : List α)
    (left mid right : Int)
    (hmax : ((pre ++ l ++ r ++ post).length : Int) ≤ INT_MAX)
    (hleft : left = pre.length)
    (hmid : mid = (pre.length : Int) + l.length - 1)
    (hright : right = (pre.length : Int) + l.length + r.length - 1) :
    merge_gen val (pre ++ l ++ r ++ post) left mid right
      = some (pre ++ ref_merge val l r ++ post) := by
  simp only [List.length_append, Nat.cast_add] at hmax
  have c1 : chk (mid - left) = some ((l.length : Int) - 1) := by
    have : mid - left = (l.length : Int) - 1 := by omega
    rw [this]; apply chk_eq_some <;> (try simp only [INT_MIN]) <;> omega
  have c2 : chk ((l.length : Int) - 1 + 1) = some (l.length : Int) := by
    have : (l.length : Int) - 1 + 1 = (l.length : Int) := by omega
    rw [this]; apply chk_natCast; omega
  have c3 : chk (right - mid) = some (r.length : Int) := by
    have : right - mid = (r.length : Int) := by omega
    rw [this]; apply chk_natCast; omega
  have a1 : ∀ p : Int, 0 ≤ p → p < (l.length : Int) →
      (fun i => chk (left + i)) p = some (left + p) := by
    intro p hp1 hp2
    apply chk_eq_some <;> simp only [INT_MIN, INT_MAX] at * <;> omega
  have a2 : ∀ p : Int, 0 ≤ p → p < (r.length : Int) →
      (fun j => (chk (mid + 1)).bind (fun b => chk (b + j))) p
        = some ((((pre ++ l).length : Nat) : Int) + p) := by
    intro p hp1 hp2
    have e : (((pre ++ l).length : Nat) : Int) = mid + 1 := by simp; omega
    have c4 : chk (mid + 1) = some (mid + 1) := by
      apply chk_eq_some <;> simp only [INT_MIN, INT_MAX] at * <;> omega
    have c5 : chk (mid + 1 + p) = some (mid + 1 + p) := by
      apply chk_eq_some <;> simp only [INT_MIN, INT_MAX] at * <;> omega
    rw [e]
    simp only [c4, Option.some_bind, c5]
  have m1 : malloc α (l.length : Int) = some (List.replicate l.length none) := by
    simp [malloc]
  have m2 : malloc α (r.length : Int) = some (List.replicate r.length none) := by
    simp [malloc]
  have i1 : copy_in (pre ++ l ++ r ++ post) (fun i => chk (left + i)) (l.length : Int) 0
      (List.replicate l.length none) = some (l.map some) := by
    have := copy_in_spec pre (r ++ post) (fun i => chk (left + i)) l []
      (List.replicate l.length none) left
      (l.length : Int) 0 (by simp; omega) a1 hleft rfl (by simp) (by simp)
    simpa using this
  have i2 : copy_in (pre ++ l ++ r ++ post)
      (fun j => (chk (mid + 1)).bind (fun b => chk (b + j))) (r.length : Int) 0
      (List.replicate r.length none) = some (r.map some) := by
    have := copy_in_spec (pre ++ l) post (fun j => (chk (mid + 1)).bind (fun b => chk (b + j))) r []
      (List.replicate r.length none)
      (((pre ++ l).length : Nat) : Int) (r.length : Int) 0 (by simp; omega) a2 rfl rfl
      (by simp) (by simp)
    simpa using this
  obtain ⟨arr1, i', j', k', arr2, k2, k3, e1, e2, e3⟩ :=
    merge_loop_spec val post (l.length + r.length) l r [] [] pre (l ++ r)
      (l.length : Int) (r.length : Int) 0 0 left rfl (by simp; omega) (by omega) (by omega)
      (by simp) rfl (by simp) rfl (by simp) hleft
  simp only [List.nil_append, ← List.append_assoc] at e1 e2 e3
  simp only [merge_gen, Option.bind_eq_bind, c1, c2, c3, m1, m2, Option.some_bind]
  rw [i1, Option.some_bind, i2]
  simp only [e1, e2, e3, Option.some_bind]

theorem ref_merge_perm {α : Type} (val : α → Int) (l r : List α) :
    (ref_merge val l r).Perm (l ++ r) := by
  induction l generalizing r with
  | nil => simp [ref_merge_nil_left]
  | cons x l ihl =>
    induction r with
    | nil => simp [ref_merge_nil_right]
    | cons y r ihr =>
      rw [ref_merge_cons_cons]
      split
      · exact (ihl (y :: r)).cons x
      · refine (ihr.cons y).trans ?_
        simpa using (List.perm_middle : ((x :: l) ++ y :: r).Perm (y :: ((x :: l) ++ r))).symm

theorem ref_merge_sorted {α : Type} (val : α → Int) (l r : List α)
    (hl : l.Pairwise (fun a b => val a ≤ val b))
    (hr : r.Pairwise (fun a b => val a ≤ val b)) :
    (ref_merge val l r).Pairwise (fun a b => val a ≤ val b) := by
  induction l generalizing r with
  | nil => simpa [ref_merge_nil_left] using hr
  | cons x l ihl =>
    induction r with
    | nil => simpa [ref_merge_nil_right] using hl
    | cons y r ihr =>
      rw [ref_merge_cons_cons]
      rw [List.pairwise_cons] at hl hr
      split
      · rename_i hxy
        rw [List.pairwise_cons]
        refine ⟨?_, ihl (y :: r) hl.2 (List.pairwise_cons.mpr hr)⟩
        intro z hz
        have hz2 := (ref_merge_perm val l (y :: r)).subset hz
        rcases List.mem_append.mp hz2 with hz3 | hz3
        · exact hl.1 z hz3
        · rcases List.mem_cons.mp hz3 with rfl | hz4
          · exact hxy
          · exact le_trans hxy (hr.1 z hz4)
      · rename_i hxy
        have hyx : val y ≤ val x := by omega
        rw [List.pairwise_cons]
        refine ⟨?_, ihr hr.2⟩
        intro z hz
        have hz2 := (ref_merge_perm val (x :: l) r).subset hz
        rcases List.mem_append.mp hz2 with hz3 | hz3
        · rcases List.mem_cons.mp hz3 with rfl | hz4
          · exact hyx
          · exact le_trans hyx (hl.1 z hz4)
        · exact hr.1 z hz3

theorem midpoint_eq (left right : Int) (h1 : INT_MIN ≤ left) (h2 : left ≤ right)
    (h3 : right ≤ INT_MAX) (h4 : right - left ≤ INT_MAX) :
    midpoint left right = some (left + (right - left) / 2) := by
  have hd : (right - left).tdiv 2 = (right - left) / 2 :=
    Int.tdiv_eq_ediv (by omega) (by omega)
  have c1 : chk (right - left) = some (right - left) := by
    apply chk_eq_some <;> simp only [INT_MIN, INT_MAX] at * <;> omega
  have c2 : chk (left + (right - left) / 2) = some (left + (right - left) / 2) := by
    apply chk_eq_some <;> simp only [INT_MIN, INT_MAX] at * <;> omega
  simp only [midpoint, Option.bind_eq_bind, c1, Option.some_bind, hd, c2]

theorem mergesort_seq_unfold (arr : List Int) {left right mid : Int} (h : left < right)
    (hm : midpoint left right = some mid) :
    mergesort_seq arr left right
      = (mergesort_seq arr left mid).bind (fun a1 =>
          (chk (mid + 1)).bind (fun _ =>
            (mergesort_seq a1 (mid + 1) right).bind (fun a2 => merge a2 left mid right))) := by
  rw [mergesort_seq]
  simp only [h, dite_true]
  split
  · rename_i hm2; rw [hm] at hm2; simp at hm2
  · rename_i m hm2
    rw [hm] at hm2
    cases hm2
    rfl

theorem mergesort_seq_base (arr : List Int) {left right : Int} (h : right ≤ left) :
    mergesort_seq arr left right = some arr := by
  rw [mergesort_seq]
  have : ¬ left < right := by omega
  simp [this]

/-- The sorted rearrangement of a run of `int`s. -/
theorem ref_merge_eq_sort (s1 s2 : List Int) :
    ref_merge id (s1.insertionSort (· ≤ ·)) (s2.insertionSort (· ≤ ·))
      = (s1 ++ s2).insertionSort (· ≤ ·) := by
  apply List.eq_of_perm_of_sorted (r := (· ≤ ·))
  · refine (ref_merge_perm id _ _).trans ?_
    refine ((List.perm_insertionSort _ s1).append (List.perm_insertionSort _ s2)).trans ?_
    exact (List.perm_insertionSort _ (s1 ++ s2)).symm
  · exact ref_merge_sorted id _ _ (List.sorted_insertionSort (· ≤ ·) s1)
      (List.sorted_insertionSort (· ≤ ·) s2)
  · exact List.sorted_insertionSort _ _

theorem merge_decomp (pre l r post : List Int) (left mid right : Int)
    (hmax : ((pre ++ l ++ r ++ post).length : Int) ≤ INT_MAX)
    (hleft : left = pre.length)
    (hmid : mid = (pre.length : Int) + l.length - 1)
    (hright : right = (pre.length : Int) + l.length + r.length - 1) :
    merge (pre ++ l ++ r ++ post) left mid right = some (pre ++ ref_merge id l r ++ post) :=
  merge_gen_decomp id pre l r post left mid right hmax hleft hmid hright

/-- What `mergesort_seq` computes: on `pre ++ seg ++ post` with the range
covering `seg`, it returns `pre ++ sort seg ++ post`. -/
theorem mergesort_seq_decomp (m : Nat) :
    ∀ (pre seg post : List Int) (left right : Int),
    seg.length ≤ m →
    ((pre ++ seg ++ post).length : Int) ≤ INT_MAX →
    left = pre.length →
    right = (pre.length : Int) + seg.length - 1 →
    mergesort_seq (pre ++ seg ++ post) left right
      = some (pre ++ seg.insertionSort (· ≤ ·) ++ post) := by
  induction m with
  | zero =>
    intro pre seg post left right hm hmax hl hr
    have : seg = [] := List.length_eq_zero.mp (by omega)
    subst this
    rw [mergesort_seq_base _ (by simp at hr; omega)]
    simp
  | succ m ih =>
    intro pre seg post left right hm hmax hl hr
    by_cases hlen : seg.length ≤ 1
    · rw [mergesort_seq_base _ (by omega)]
      match seg, hlen with
      | [], _ => simp
      | [x], _ => simp
      | _ :: _ :: _, h => simp at h
    · have hlt : left < right := by omega
      simp only [List.length_append, Nat.cast_add] at hmax
      have hINT : INT_MAX = 2147483647 := rfl
      have hmid := midpoint_eq left right
        (by simp only [INT_MIN]; omega) (by omega) (by omega) (by omega)
      obtain ⟨h, hh⟩ : ∃ h : Nat, (h : Int) = (right - left) / 2 + 1 :=
        ⟨((right - left) / 2 + 1).toNat, by omega⟩
      have hsplit : seg.take h ++ seg.drop h = seg := List.take_append_drop h seg
      have h1len : (seg.take h).length = h := by
        rw [List.length_take]; omega
      have h2len : (seg.drop h).length = seg.length - h := by
        rw [List.length_drop]
      generalize hs1 : seg.take h = s1 at hsplit h1len
      generalize hs2 : seg.drop h = s2 at hsplit h2len
      subst hsplit
      simp only [List.length_append, Nat.cast_add] at hm hmax hr hlen h2len
      have e1 := ih pre s1 (s2 ++ post) left (left + (right - left) / 2)
        (by omega) (by simp; omega) hl (by omega)
      have e2 := ih (pre ++ s1.insertionSort (· ≤ ·)) s2 post
        (left + (right - left) / 2 + 1) right
        (by omega) (by simp [List.length_insertionSort]; omega)
        (by simp [List.length_insertionSort]; omega)
        (by simp [List.length_insertionSort]; omega)
      have c1 : chk (left + (right - left) / 2 + 1) = some (left + (right - left) / 2 + 1) := by
        apply chk_eq_some <;> simp only [INT_MIN, INT_MAX] <;> omega
      have e3 := merge_decomp pre (s1.insertionSort (· ≤ ·)) (s2.insertionSort (· ≤ ·)) post
        left (left + (right - left) / 2) right
        (by simp [List.length_insertionSort]; omega) hl
        (by simp [List.length_insertionSort]; omega)
        (by simp [List.length_insertionSort]; omega)
      rw [mergesort_seq_unfold _ hlt hmid]
      simp only [List.append_assoc] at e1 e2 e3 ⊢
      rw [e1]
      simp only [Option.some_bind, c1]
      rw [e2]
      simp only [Option.some_bind]
      rw [e3, ref_merge_eq_sort]

theorem mergesort_par_base (arr : List Int) {left right : Int} (threshold : Int)
    (h : right ≤ left) : mergesort_par arr left right threshold = some arr := by
  rw [mergesort_par]
  have : ¬ left < right := by omega
  simp [this]

theorem mergesort_par_small (arr : List Int) {left right threshold : Int} (h : left < right)
    (hd : chk (right - left) = some (right - left)) (ht : right - left < threshold) :
    mergesort_par arr left right threshold = mergesort_seq arr left right := by
  rw [mergesort_par]
  simp only [h, dite_true, Option.bind_eq_bind, hd, Option.some_bind, ht, if_true]

theorem mergesort_par_unfold (arr : List Int) {left right mid threshold : Int}
    (h : left < right) (hd : chk (right - left) = some (right - left))
    (ht : ¬ right - left < threshold) (hm : midpoint left right = some mid) :
    mergesort_par arr left right threshold
      = (mergesort_par arr left mid threshold).bind (fun a1 =>
          (chk (mid + 1)).bind (fun _ =>
            (mergesort_par a1 (mid + 1) right threshold).bind (fun a2 =>
              merge a2 left mid right))) := by
  rw [mergesort_par]
  simp only [h, dite_true, Option.bind_eq_bind, hd, Option.some_bind, ht, if_false]
  split
  · rename_i hm2; rw [hm] at hm2; simp at hm2
  · rename_i m hm2
    rw [hm] at hm2
    cases hm2
    rfl

/-- What `mergesort_par` computes, for every threshold: the same array as
`mergesort_seq`. -/
theorem mergesort_par_decomp (threshold : Int) (m : Nat) :
    ∀ (pre seg post : List Int) (left right : Int),
    seg.length ≤ m →
    ((pre ++ seg ++ post).length : Int) ≤ INT_MAX →
    left = pre.length →
    right = (pre.length : Int) + seg.length - 1 →
    mergesort_par (pre ++ seg ++ post) left right threshold
      = some (pre ++ seg.insertionSort (· ≤ ·) ++ post) := by
  induction m with
  | zero =>
    intro pre seg post left right hm hmax hl hr
    have : seg = [] := List.length_eq_zero.mp (by omega)
    subst this
    rw [mergesort_par_base _ _ (by simp at hr; omega)]
    simp
  | succ m ih =>
    intro pre seg post left right hm hmax hl hr
    by_cases hlen : seg.length ≤ 1
    · rw [mergesort_par_base _ _ (by omega)]
      match seg, hlen with
      | [], _ => simp
      | [x], _ => simp
      | _ :: _ :: _, h => simp at h
    · have hlt : left < right := by omega
      have hmax0 := hmax
      simp only [List.length_append, Nat.cast_add] at hmax
      have hINT : INT_MAX = 2147483647 := rfl
      have hd : chk (right - left) = some (right - left) := by
        apply chk_eq_some <;> simp only [INT_MIN, INT_MAX] <;> omega
      by_cases ht : right - left < threshold
      · rw [mergesort_par_small _ hlt hd ht]
        exact mergesort_seq_decomp seg.length pre seg post left right le_rfl hmax0 hl hr
      have hmid := midpoint_eq left right
        (by simp only [INT_MIN]; omega) (by omega) (by omega) (by omega)
      obtain ⟨h, hh⟩ : ∃ h : Nat, (h : Int) = (right - left) / 2 + 1 :=
        ⟨((right - left) / 2 + 1).toNat, by omega⟩
      have hsplit : seg.take h ++ seg.drop h = seg := List.take_append_drop h seg
      have h1len : (seg.take h).length = h := by
        rw [List.length_take]; omega
      have h2len : (seg.drop h).length = seg.length - h := by
        rw [List.length_drop]
      generalize hs1 : seg.take h = s1 at hsplit h1len
      generalize hs2 : seg.drop h = s2 at hsplit h2len
      subst hsplit
      simp only [List.length_append, Nat.cast_add] at hm hmax hr hlen h2len
      have e1 := ih pre s1 (s2 ++ post) left (left + (right - left) / 2)
        (by omega) (by simp; omega) hl (by omega)
      have e2 := ih (pre ++ s1.insertionSort (· ≤ ·)) s2 post
        (left + (right - left) / 2 + 1) right
        (by omega) (by simp [List.length_insertionSort]; omega)
        (by simp [List.length_insertionSort]; omega)
        (by simp [List.length_insertionSort]; omega)
      have c1 : chk (left + (right - left) / 2 + 1) = some (left + (right - left) / 2 + 1) := by
        apply chk_eq_some <;> simp only [INT_MIN, INT_MAX] <;> omega
      have e3 := merge_decomp pre (s1.insertionSort (· ≤ ·)) (s2.insertionSort (· ≤ ·)) post
        left (left + (right - left) / 2) right
        (by simp [List.length_insertionSort]; omega) hl
        (by simp [List.length_insertionSort]; omega)
        (by simp [List.length_insertionSort]; omega)
      rw [mergesort_par_unfold _ hlt hd ht hmid]
      simp only [List.append_assoc] at e1 e2 e3 ⊢
      rw [e1]
      simp only [Option.some_bind, c1]
      rw [e2]
      simp only [Option.some_bind]
      rw [e3, ref_merge_eq_sort]

/-! ## From index ranges to segments -/

theorem decompose {α : Type} (arr : List α) (left right : Int) (h0 : 0 ≤ left)
    (hlr : left ≤ right + 1) (hr : right < arr.length) :
    arr = arr.take left.toNat ++ slice arr left right ++ arr.drop (right + 1).toNat ∧
    left = ((arr.take left.toNat).length : Int) ∧
    right = ((arr.take left.toNat).length : Int) + (slice arr left right).length - 1 := by
  have e : (right + 1).toNat = left.toNat + (right + 1 - left).toNat := by omega
  refine ⟨?_, ?_, ?_⟩
  · rw [slice, e, List.append_assoc, ← List.drop_drop, List.take_append_drop,
      List.take_append_drop]
  · rw [List.length_take]; omega
  · rw [List.length_take, slice, List.length_take, List.length_drop]; omega

theorem rd_seg {α : Type} (pre seg post : List α) (p : Nat) (i : Int)
    (hi : i = (pre.length : Int) + p) (hp : p < seg.length) :
    rd (pre ++ seg ++ post) i = seg[p]? := by
  have : i = ((pre.length + p : Nat) : Int) := by simp [hi]
  rw [this, rd_natCast, List.append_assoc, List.getElem?_append_right (by omega)]
  simp [List.getElem?_append_left hp]

theorem rd_pre {α : Type} (pre rest : List α) (i : Int) (hi : i < pre.length) :
    rd (pre ++ rest) i = rd pre i := by
  unfold rd
  split
  · rw [List.getElem?_append_left (by omega)]
  · rfl

theorem rd_post {α : Type} (pre post : List α) (p : Nat) (i : Int)
    (hi : i = (pre.length : Int) + p) :
    rd (pre ++ post) i = post[p]? := by
  have : i = ((pre.length + p : Nat) : Int) := by simp [hi]
  rw [this, rd_natCast, List.getElem?_append_right (by omega)]
  simp

theorem sorted_iff_adjacent (s : List Int) :
    s.Sorted (· ≤ ·) ↔ ∀ p : Nat, p + 1 < s.length → ∃ a ∈ s[p]?, ∃ b ∈ s[p + 1]?, a ≤ b := by
  rw [List.Sorted, ← List.chain'_iff_pairwise, List.chain'_iff_get]
  constructor
  · intro h p hp
    refine ⟨s[p], by simp [List.getElem?_eq_getElem (show p < s.length by omega)], s[p + 1],
      by simp [List.getElem?_eq_getElem hp], ?_⟩
    simpa using h p (by omega)
  · intro h p hp
    obtain ⟨a, ha, b, hb, hab⟩ := h p (by omega)
    have h1 : p < s.length := by omega
    have h2 : p + 1 < s.length := by omega
    rw [Option.mem_def, List.getElem?_eq_getElem h1] at ha
    rw [Option.mem_def, List.getElem?_eq_getElem h2] at hb
    cases ha; cases hb
    simpa using hab

/-- On `pre ++ seg ++ post`, the range covering `seg` is non-decreasing exactly
when the list `seg` is sorted. -/
theorem nondecreasing_iff_sorted (pre seg post : List Int) (left right : Int)
    (hl : left = pre.length) (hr : right = (pre.length : Int) + seg.length - 1) :
    nondecreasing (pre ++ seg ++ post) left right ↔ seg.Sorted (· ≤ ·) := by
  rw [sorted_iff_adjacent]
  constructor
  · intro h p hp
    have := h (left + p) (by omega) (by omega)
    rw [rd_seg pre seg post p (left + p) (by omega) (by omega),
      rd_seg pre seg post (p + 1) (left + p + 1) (by push_cast; omega) hp] at this
    exact this
  · intro h i h1 h2
    obtain ⟨p, hp⟩ : ∃ p : Nat, i = left + p := ⟨(i - left).toNat, by omega⟩
    have := h p (by omega)
    rw [rd_seg pre seg post p i (by omega) (by omega),
      rd_seg pre seg post (p + 1) (i + 1) (by push_cast; omega) (by omega)]
    exact this

/-! ## The sorts on an index range -/

theorem mergesort_seq_eq (arr : List Int) (left right : Int)
    (hn : (arr.length : Int) ≤ INT_MAX) (h0 : 0 ≤ left) (hlr : left ≤ right + 1)
    (hr : right < arr.length) :
    mergesort_seq arr left right
      = some (arr.take left.toNat ++ (slice arr left right).insertionSort (· ≤ ·)
          ++ arr.drop (right + 1).toNat) := by
  obtain ⟨e, hl, hr2⟩ := decompose arr left right h0 hlr hr
  have := mergesort_seq_decomp (slice arr left right).length (arr.take left.toNat)
    (slice arr left right) (arr.drop (right + 1).toNat) left right le_rfl
    (by rw [← e]; exact hn) hl hr2
  rw [← e] at this
  exact this

theorem mergesort_par_eq (arr : List Int) (left right threshold : Int)
    (hn : (arr.length : Int) ≤ INT_MAX) (h0 : 0 ≤ left) (hlr : left ≤ right + 1)
    (hr : right < arr.length) :
    mergesort_par arr left right threshold
      = some (arr.take left.toNat ++ (slice arr left right).insertionSort (· ≤ ·)
          ++ arr.drop (right + 1).toNat) := by
  obtain ⟨e, hl, hr2⟩ := decompose arr left right h0 hlr hr
  have := mergesort_par_decomp threshold (slice arr left right).length (arr.take left.toNat)
    (slice arr left right) (arr.drop (right + 1).toNat) left right le_rfl
    (by rw [← e]; exact hn) hl hr2
  rw [← e] at this
  exact this

/-- The array written by a sort of `[left, right]`: sorted on the range, a
rearrangement of the input, of the same length. -/
theorem sorted_frame_props (arr : List Int) (left right : Int)
    (h0 : 0 ≤ left) (hlr : left ≤ right + 1) (hr : right < arr.length) :
    let out := arr.take left.toNat ++ (slice arr left right).insertionSort (· ≤ ·)
          ++ arr.drop (right + 1).toNat
    nondecreasing out left right ∧ out.length = arr.length ∧ out.Perm arr := by
  intro out
  obtain ⟨e, hl, hr2⟩ := decompose arr left right h0 hlr hr
  have hperm : out.Perm arr := by
    have h1 : out.Perm (arr.take left.toNat ++ slice arr left right
        ++ arr.drop (right + 1).toNat) :=
      ((List.Perm.refl _).append (List.perm_insertionSort _ _)).append (List.Perm.refl _)
    rw [← e] at h1
    exact h1
  refine ⟨?_, hperm.length_eq, hperm⟩
  rw [nondecreasing_iff_sorted _ _ _ left right hl
    (by rw [List.length_insertionSort]; exact hr2)]
  exact List.sorted_insertionSort (· ≤ ·) _

/-- C1: for every array and every range `0 <= left <= right < n` (`n` an
`int`), `mergesort_seq` returns and leaves `arr[left..right]` non-decreasing;
over the whole array the result is sorted, and `[5, 3, 8, 1]` becomes
`[1, 3, 5, 8]`. -/
theorem mergesort_seq_sorted (arr : List Int) (left right : Int)
    (hn : (arr.length : Int) ≤ INT_MAX) (h0 : 0 ≤ left) (hlr : left ≤ right)
    (hr : right < arr.length) :
    (∃ out, mergesort_seq arr left right = some out ∧ nondecreasing out left right ∧
      (left = 0 → right = (arr.length : Int) - 1 → out.Sorted (· ≤ ·))) ∧
    mergesort_seq [5, 3, 8, 1] 0 3 = some [1, 3, 5, 8] := by
  constructor
  · refine ⟨_, mergesort_seq_eq arr left right hn h0 (by omega) hr, ?_, ?_⟩
    · exact (sorted_frame_props arr left right h0 (by omega) hr).1
    · intro hl0 hrn
      have h1 : left.toNat = 0 := by omega
      have h2 : (right + 1).toNat = arr.length := by omega
      simp only [h1, h2, List.take_zero, List.drop_length, List.nil_append, List.append_nil]
      exact List.sorted_insertionSort (· ≤ ·) _
  · rw [mergesort_seq_eq _ _ _ (by decide) (by decide) (by decide) (by decide)]
    decide

theorem mergesort_seq_sorted_witness :
    ((([7, 5, 3, 8, 1, 0] : List Int).length : Int) ≤ INT_MAX ∧ (0 : Int) ≤ 1 ∧
      (1 : Int) ≤ 4 ∧ (4 : Int) < ([7, 5, 3, 8, 1, 0] : List Int).length) ∧
    ((∃ out, mergesort_seq [7, 5, 3, 8, 1, 0] 1 4 = some out ∧ nondecreasing out 1 4 ∧
      ((1 : Int) = 0 → (4 : Int) = (([7, 5, 3, 8, 1, 0] : List Int).length : Int) - 1 →
        out.Sorted (· ≤ ·))) ∧
    mergesort_seq [5, 3, 8, 1] 0 3 = some [1, 3, 5, 8]) :=
  ⟨by decide, mergesort_seq_sorted [7, 5, 3, 8, 1, 0] 1 4 (by decide) (by decide) (by decide)
    (by decide)⟩

/-- C2: for every array and every range `0 <= left <= right < n` (`n` an
`int`), `mergesort_seq` returns an array of the same length whose multiset of
elements is that of the input. -/
theorem mergesort_seq_perm (arr : List Int) (left right : Int)
    (hn : (arr.length : Int) ≤ INT_MAX) (h0 : 0 ≤ left) (hlr : left ≤ right)
    (hr : right < arr.length) :
    ∃ out, mergesort_seq arr left right = some out ∧ out.length = arr.length ∧
      Multiset.ofList out = Multiset.ofList arr := by
  refine ⟨_, mergesort_seq_eq arr left right hn h0 (by omega) hr, ?_, ?_⟩
  · exact (sorted_frame_props arr left right h0 (by omega) hr).2.1
  · exact Multiset.coe_eq_coe.mpr (sorted_frame_props arr left right h0 (by omega) hr).2.2

theorem mergesort_seq_perm_witness :
    ((([2, 9, 9, 4, 1] : List Int).length : Int) ≤ INT_MAX ∧ (0 : Int) ≤ 0 ∧
      (0 : Int) ≤ 3 ∧ (3 : Int) < ([2, 9, 9, 4, 1] : List Int).length) ∧
    ∃ out, mergesort_seq [2, 9, 9, 4, 1] 0 3 = some out ∧
      out.length = ([2, 9, 9, 4, 1] : List Int).length ∧
      Multiset.ofList out = Multiset.ofList [2, 9, 9, 4, 1] :=
  ⟨by decide, mergesort_seq_perm [2, 9, 9, 4, 1] 0 3 (by decide) (by decide) (by decide)
    (by decide)⟩

/-- C3: for every array, every range within the array and every threshold
(in particular every threshold `>= 1`), `mergesort_par` (its two tasks run one
after the other) returns exactly the array `mergesort_seq` returns; hence its
output is the same for any two thresholds `t1`, `t2`. -/
theorem mergesort_par_eq_seq (arr : List Int) (left right t1 t2 : Int)
    (hn : (arr.length : Int) ≤ INT_MAX) (h0 : 0 ≤ left) (hr : right < arr.length) :
    (∃ out, mergesort_seq arr left right = some out ∧
      mergesort_par arr left right t1 = some out) ∧
    mergesort_par arr left right t1 = mergesort_par arr left right t2 := by
  by_cases hlr : left ≤ right + 1
  · refine ⟨⟨_, mergesort_seq_eq arr left right hn h0 hlr hr, ?_⟩, ?_⟩
    · exact mergesort_par_eq arr left right t1 hn h0 hlr hr
    · rw [mergesort_par_eq arr left right t1 hn h0 hlr hr,
        mergesort_par_eq arr left right t2 hn h0 hlr hr]
  · refine ⟨⟨arr, mergesort_seq_base arr (by omega), mergesort_par_base arr t1 (by omega)⟩, ?_⟩
    rw [mergesort_par_base arr t1 (by omega), mergesort_par_base arr t2 (by omega)]

theorem mergesort_par_eq_seq_witness :
    ((([5, 3, 8, 1, 9, 2] : List Int).length : Int) ≤ INT_MAX ∧ (0 : Int) ≤ 0 ∧
      (5 : Int) < ([5, 3, 8, 1, 9, 2] : List Int).length) ∧
    ((∃ out, mergesort_seq [5, 3, 8, 1, 9, 2] 0 5 = some out ∧
      mergesort_par [5, 3, 8, 1, 9, 2] 0 5 1 = some out) ∧
    mergesort_par [5, 3, 8, 1, 9, 2] 0 5 1 = mergesort_par [5, 3, 8, 1, 9, 2] 0 5 1000) :=
  ⟨by decide, mergesort_par_eq_seq [5, 3, 8, 1, 9, 2] 0 5 1 1000 (by decide) (by decide)
    (by decide)⟩

/-! ## `merge` on an index range -/

theorem slice_split {α : Type} (arr : List α) (left mid right : Int) (h0 : 0 ≤ left)
    (hlm : left ≤ mid + 1) (hmr : mid ≤ right) :
    slice arr left right = slice arr left mid ++ slice arr (mid + 1) right := by
  have e1 : (right + 1 - left).toNat = (mid + 1 - left).toNat + (right + 1 - (mid + 1)).toNat := by
    omega
  have e2 : (mid + 1).toNat = left.toNat + (mid + 1 - left).toNat := by omega
  simp only [slice]
  rw [e1, List.take_add, List.drop_drop, ← e2]

theorem slice_length {α : Type} (arr : List α) (left right : Int) (h0 : 0 ≤ left)
    (hlr : left ≤ right + 1) (hr : right < arr.length) :
    ((slice arr left right).length : Int) = right + 1 - left := by
  rw [slice, List.length_take, List.length_drop]; omega

theorem slice_decomp {α : Type} (pre seg post : List α) (left right : Int)
    (hl : left = pre.length) (hr : right = (pre.length : Int) + seg.length - 1) :
    slice (pre ++ seg ++ post) left right = seg := by
  have e1 : left.toNat = pre.length := by omega
  have e2 : (right + 1 - left).toNat = seg.length := by omega
  rw [slice, e1, e2, List.append_assoc, List.drop_left, List.take_left]

theorem merge_gen_eq {α : Type} (val : α → Int) (arr : List α) (left mid right : Int)
    (hn : (arr.length : Int) ≤ INT_MAX) (h0 : 0 ≤ left) (hlm : left ≤ mid)
    (hmr : mid < right) (hr : right < arr.length) :
    merge_gen val arr left mid right
      = some (arr.take left.toNat
          ++ ref_merge val (slice arr left mid) (slice arr (mid + 1) right)
          ++ arr.drop (right + 1).toNat) := by
  obtain ⟨e, hl, hr2⟩ := decompose arr left right h0 (by omega) hr
  have hs := slice_split arr left mid right h0 (by omega) (by omega)
  have hl1 := slice_length arr left mid h0 (by omega) (by omega)
  have hl2 := slice_length arr (mid + 1) right (by omega) (by omega) hr
  rw [hs] at e hr2
  have := merge_gen_decomp val (arr.take left.toNat) (slice arr left mid)
    (slice arr (mid + 1) right) (arr.drop (right + 1).toNat) left mid right
    (by rw [List.append_assoc (arr.take left.toNat), ← e]; exact hn) hl (by omega)
    (by rw [List.length_append] at hr2; omega)
  rw [List.append_assoc (arr.take left.toNat), ← e] at this
  exact this

/-- C4: for every array and `left <= mid < right` within it whose two runs
`arr[left..mid]` and `arr[mid+1..right]` are non-decreasing, `merge` returns
and leaves `arr[left..right]` non-decreasing, holding the same multiset as
before; the runs `[1, 4, 4, 9]` and `[2, 4, 6]` give `[1, 2, 4, 4, 4, 6, 9]`. -/
theorem merge_sorted_perm (arr : List Int) (left mid right : Int)
    (hn : (arr.length : Int) ≤ INT_MAX) (h0 : 0 ≤ left) (hlm : left ≤ mid)
    (hmr : mid < right) (hr : right < arr.length)
    (hs1 : nondecreasing arr left mid) (hs2 : nondecreasing arr (mid + 1) right) :
    (∃ out, merge arr left mid right = some out ∧ nondecreasing out left right ∧
      Multiset.ofList (slice out left right) = Multiset.ofList (slice arr left right)) ∧
    merge [1, 4, 4, 9, 2, 4, 6] 0 3 6 = some [1, 2, 4, 4, 4, 6, 9] := by
  constructor
  · refine ⟨_, merge_gen_eq id arr left mid right hn h0 hlm hmr hr, ?_, ?_⟩
    · obtain ⟨e1, hl1, hr1⟩ := decompose arr left mid h0 (by omega) (by omega)
      obtain ⟨e2, hl2, hr2⟩ := decompose arr (mid + 1) right (by omega) (by omega) hr
      obtain ⟨-, hl, hr3⟩ := decompose arr left right h0 (by omega) hr
      have s1 : (slice arr left mid).Sorted (· ≤ ·) := by
        rw [← nondecreasing_iff_sorted _ _ _ left mid hl1 hr1, ← e1]; exact hs1
      have s2 : (slice arr (mid + 1) right).Sorted (· ≤ ·) := by
        rw [← nondecreasing_iff_sorted _ _ _ (mid + 1) right hl2 hr2, ← e2]; exact hs2
      rw [nondecreasing_iff_sorted _ _ _ left right hl]
      · exact ref_merge_sorted id _ _ s1 s2
      · rw [(ref_merge_perm id _ _).length_eq,
          ← slice_split arr left mid right h0 (by omega) (by omega)]
        exact hr3
    · obtain ⟨-, hl, hr3⟩ := decompose arr left right h0 (by omega) hr
      rw [slice_decomp _ _ _ left right hl, slice_split arr left mid right h0 (by omega) (by omega)]
      · exact Multiset.coe_eq_coe.mpr (ref_merge_perm id _ _)
      · rw [(ref_merge_perm id _ _).length_eq,
          ← slice_split arr left mid right h0 (by omega) (by omega)]
        exact hr3
  · rw [merge, merge_gen_eq _ _ _ _ _ (by decide) (by decide) (by decide) (by decide) (by decide)]
    simp [slice, ref_merge]

theorem merge_sorted_perm_witness :
    ((([1, 4, 4, 9, 2, 4, 6] : List Int).length : Int) ≤ INT_MAX ∧ (0 : Int) ≤ 0 ∧
      (0 : Int) ≤ 3 ∧ (3 : Int) < 6 ∧ (6 : Int) < ([1, 4, 4, 9, 2, 4, 6] : List Int).length ∧
      nondecreasing [1, 4, 4, 9, 2, 4, 6] 0 3 ∧ nondecreasing [1, 4, 4, 9, 2, 4, 6] (3 + 1) 6) ∧
    ((∃ out, merge [1, 4, 4, 9, 2, 4, 6] 0 3 6 = some out ∧ nondecreasing out 0 6 ∧
      Multiset.ofList (slice out 0 6) = Multiset.ofList (slice [1, 4, 4, 9, 2, 4, 6] 0 6)) ∧
    merge [1, 4, 4, 9, 2, 4, 6] 0 3 6 = some [1, 2, 4, 4, 4, 6, 9]) :=
  ⟨by decide, merge_sorted_perm [1, 4, 4, 9, 2, 4, 6] 0 3 6 (by decide) (by decide) (by decide)
    (by decide) (by decide) (by decide) (by decide)⟩

/-- C5: for every array, its two runs sorted or not, and `left <= mid < right`
within it, `merge` returns an array of the same length in which every cell of
index `k < left` or `k > right` holds what it held before the call. -/
theorem merge_frame (arr : List Int) (left mid right : Int)
    (hn : (arr.length : Int) ≤ INT_MAX) (h0 : 0 ≤ left) (hlm : left ≤ mid)
    (hmr : mid < right) (hr : right < arr.length) :
    ∃ out, merge arr left mid right = some out ∧ out.length = arr.length ∧
      ∀ k : Int, k < left ∨ right < k → rd out k = rd arr k := by
  refine ⟨_, merge_gen_eq id arr left mid right hn h0 hlm hmr hr, ?_, ?_⟩
  · have hp := (ref_merge_perm id (slice arr left mid) (slice arr (mid + 1) right)).length_eq
    have hl1 := slice_length arr left mid h0 (by omega) (by omega)
    have hl2 := slice_length arr (mid + 1) right (by omega) (by omega) hr
    simp only [List.length_append, hp, List.length_take, List.length_drop]
    omega
  · intro k hk
    obtain ⟨e, hl, hr3⟩ := decompose arr left right h0 (by omega) hr
    have hlen : (ref_merge id (slice arr left mid) (slice arr (mid + 1) right)).length
        = (slice arr left right).length := by
      rw [(ref_merge_perm id _ _).length_eq,
        ← slice_split arr left mid right h0 (by omega) (by omega)]
    generalize ref_merge id (slice arr left mid) (slice arr (mid + 1) right) = M at hlen
    generalize arr.take left.toNat = pre at e hl hr3
    generalize arr.drop (right + 1).toNat = post at e
    generalize slice arr left right = seg at e hr3 hlen
    subst e
    rcases hk with hk | hk
    · rw [List.append_assoc, List.append_assoc, rd_pre _ _ _ (by omega), rd_pre _ _ _ (by omega)]
    · obtain ⟨p, hp⟩ : ∃ p : Nat, k = right + 1 + p := ⟨(k - (right + 1)).toNat, by omega⟩
      rw [rd_post (pre ++ M) post p k (by rw [List.length_append]; omega),
        rd_post (pre ++ seg) post p k (by rw [List.length_append]; omega)]

theorem merge_frame_witness :
    ((([0, 9, 7, 8, 1, 5] : List Int).length : Int) ≤ INT_MAX ∧ (0 : Int) ≤ 1 ∧
      (1 : Int) ≤ 2 ∧ (2 : Int) < 4 ∧ (4 : Int) < ([0, 9, 7, 8, 1, 5] : List Int).length) ∧
    ∃ out, merge [0, 9, 7, 8, 1, 5] 1 2 4 = some out ∧
      out.length = ([0, 9, 7, 8, 1, 5] : List Int).length ∧
      ∀ k : Int, k < 1 ∨ 4 < k → rd out k = rd [0, 9, 7, 8, 1, 5] k :=
  ⟨by decide, merge_frame [0, 9, 7, 8, 1, 5] 1 2 4 (by decide) (by decide) (by decide)
    (by decide) (by decide)⟩

/-! ## Stability of `merge` -/

theorem ref_merge_pairwise {α : Type} (val : α → Int) (Rel : α → α → Prop) (l r : List α)
    (hl : l.Pairwise Rel) (hr : r.Pairwise Rel)
    (sl : l.Pairwise (fun a b => val a ≤ val b))
    (sr : r.Pairwise (fun a b => val a ≤ val b))
    (hlr : ∀ x ∈ l, ∀ z ∈ r, val x ≤ val z → Rel x z)
    (hrl : ∀ y ∈ r, ∀ z ∈ l, val y < val z → Rel y z) :
    (ref_merge val l r).Pairwise Rel := by
  induction l generalizing r with
  | nil => simpa [ref_merge_nil_left] using hr
  | cons x l ihl =>
    induction r with
    | nil => simpa [ref_merge_nil_right] using hl
    | cons y r ihr =>
      rw [ref_merge_cons_cons]
      rw [List.pairwise_cons] at hl hr sl sr
      split
      · rename_i hxy
        rw [List.pairwise_cons]
        refine ⟨?_, ihl (y :: r) hl.2 (List.pairwise_cons.mpr hr) sl.2
          (List.pairwise_cons.mpr sr)
          (fun a ha z hz => hlr a (List.mem_cons_of_mem _ ha) z hz)
          (fun a ha z hz => hrl a ha z (List.mem_cons_of_mem _ hz))⟩
        intro z hz
        have hz2 := (ref_merge_perm val l (y :: r)).subset hz
        rcases List.mem_append.mp hz2 with hz3 | hz3
        · exact hl.1 z hz3
        · refine hlr x (List.mem_cons_self _ _) z hz3 ?_
          rcases List.mem_cons.mp hz3 with rfl | hz4
          · exact hxy
          · exact le_trans hxy (sr.1 z hz4)
      · rename_i hxy
        have hyx : val y < val x := by omega
        rw [List.pairwise_cons]
        refine ⟨?_, ihr hr.2 sr.2
          (fun a ha z hz => hlr a ha z (List.mem_cons_of_mem _ hz))
          (fun a ha z hz => hrl a (List.mem_cons_of_mem _ ha) z hz)⟩
        intro z hz
        have hz2 := (ref_merge_perm val (x :: l) r).subset hz
        rcases List.mem_append.mp hz2 with hz3 | hz3
        · refine hrl y (List.mem_cons_self _ _) z hz3 ?_
          rcases List.mem_cons.mp hz3 with rfl | hz4
          · exact hyx
          · exact lt_of_lt_of_le hyx (sl.1 z hz4)
        · exact hr.1 z hz3

theorem ref_merge_map_fst (l r : List (Int × Int)) :
    (ref_merge Prod.fst l r).map Prod.fst = ref_merge id (l.map Prod.fst) (r.map Prod.fst) := by
  induction l generalizing r with
  | nil => simp [ref_merge_nil_left]
  | cons x l ihl =>
    induction r with
    | nil => simp [ref_merge_nil_right]
    | cons y r ihr =>
      simp only [List.map_cons, ref_merge_cons_cons, id]
      split
      · simpa using ihl (y :: r)
      · simpa using ihr

theorem tagFrom_append (n : Int) (a b : List Int) :
    tagFrom n (a ++ b) = tagFrom n a ++ tagFrom (n + a.length) b := by
  induction a generalizing n with
  | nil => simp [tagFrom]
  | cons v a ih =>
    have e : n + 1 + (a.length : Int) = n + ((a.length + 1 : Nat) : Int) := by
      push_cast; omega
    rw [List.cons_append, tagFrom, tagFrom, ih, List.length_cons, e, List.cons_append]

theorem tagFrom_length (n : Int) (a : List Int) : (tagFrom n a).length = a.length := by
  induction a generalizing n with
  | nil => rfl
  | cons v a ih => simp [tagFrom, ih]

theorem tagFrom_map_fst (n : Int) (a : List Int) : (tagFrom n a).map Prod.fst = a := by
  induction a generalizing n with
  | nil => rfl
  | cons v a ih => simp [tagFrom, ih]

theorem mem_tagFrom (n : Int) (a : List Int) (c : Int × Int) (hc : c ∈ tagFrom n a) :
    ∃ p : Nat, c.2 = n + p ∧ p < a.length ∧ a[p]? = some c.1 := by
  induction a generalizing n with
  | nil => simp [tagFrom] at hc
  | cons v a ih =>
    simp only [tagFrom, List.mem_cons] at hc
    rcases hc with rfl | hc
    · exact ⟨0, by simp, by simp, by simp⟩
    · obtain ⟨p, h1, h2, h3⟩ := ih (n + 1) hc
      exact ⟨p + 1, by push_cast; omega, by simp; omega, by simpa using h3⟩

theorem tagFrom_pairwise_idx (n : Int) (a : List Int) :
    (tagFrom n a).Pairwise (fun x y => x.2 < y.2) := by
  induction a generalizing n with
  | nil => simp [tagFrom]
  | cons v a ih =>
    simp only [tagFrom, List.pairwise_cons]
    refine ⟨?_, ih (n + 1)⟩
    intro c hc
    obtain ⟨p, h1, -, -⟩ := mem_tagFrom (n + 1) a c hc
    show n < c.2
    omega

theorem tagFrom_pairwise_val (n : Int) (a : List Int) (h : a.Sorted (· ≤ ·)) :
    (tagFrom n a).Pairwise (fun x y => x.1 ≤ y.1) := by
  have : ((tagFrom n a).map Prod.fst).Pairwise (· ≤ ·) := by
    rw [tagFrom_map_fst]; exact h
  exact (List.pairwise_map.mp this)

/-- The instrumented run of `merge` on an array whose two runs are `l` and
`r`: what it returns, and how the tagged cells are ordered in it. -/
theorem merge_stable_decomp (pre l r post : List Int) (left mid right : Int)
    (hmax : ((pre ++ l ++ r ++ post).length : Int) ≤ INT_MAX)
    (hleft : left = pre.length)
    (hmid : mid = (pre.length : Int) + l.length - 1)
    (hright : right = (pre.length : Int) + l.length + r.length - 1)
    (s1 : l.Sorted (· ≤ ·)) (s2 : r.Sorted (· ≤ ·)) :
    ∃ M : List (Int × Int),
      merge_gen Prod.fst (tag (pre ++ l ++ r ++ post)) left mid right
        = some (tagFrom 0 pre ++ M ++ tagFrom (right + 1) post) ∧
      M.map Prod.fst = ref_merge id l r ∧
      M.Perm (tagFrom left (l ++ r)) ∧
      M.Pairwise (fun x y => ((x.2 ≤ mid ↔ y.2 ≤ mid) → x.2 < y.2) ∧
        (mid < x.2 → y.2 ≤ mid → x.1 < y.1)) := by
  have hm1 : mid + 1 = left + (l.length : Int) := by omega
  have hr1 : right + 1 = left + (l.length : Int) + r.length := by omega
  have htag : tag (pre ++ l ++ r ++ post)
      = tagFrom 0 pre ++ tagFrom left l ++ tagFrom (mid + 1) r ++ tagFrom (right + 1) post := by
    simp only [tag, tagFrom_append, List.length_append, Nat.cast_add, hm1, hr1, hleft, zero_add]
  refine ⟨ref_merge Prod.fst (tagFrom left l) (tagFrom (mid + 1) r), ?_, ?_, ?_, ?_⟩
  · rw [htag]
    refine merge_gen_decomp Prod.fst (tagFrom 0 pre) (tagFrom left l) (tagFrom (mid + 1) r)
      (tagFrom (right + 1) post) left mid right ?_ ?_ ?_ ?_
    · simpa [tagFrom_length] using hmax
    · simpa [tagFrom_length] using hleft
    · simpa [tagFrom_length] using hmid
    · simpa [tagFrom_length] using hright
  · rw [ref_merge_map_fst, tagFrom_map_fst, tagFrom_map_fst]
  · rw [tagFrom_append, ← hm1]
    exact ref_merge_perm _ _ _
  · have memL : ∀ x ∈ tagFrom left l, left ≤ x.2 ∧ x.2 ≤ mid := by
      intro x hx
      obtain ⟨p, h1, h2, -⟩ := mem_tagFrom left l x hx
      omega
    have memR : ∀ x ∈ tagFrom (mid + 1) r, mid < x.2 ∧ x.2 ≤ right := by
      intro x hx
      obtain ⟨p, h1, h2, -⟩ := mem_tagFrom (mid + 1) r x hx
      omega
    apply ref_merge_pairwise
    · refine (tagFrom_pairwise_idx left l).imp_of_mem ?_
      intro a b ha hb hab
      have := memL a ha
      exact ⟨fun _ => hab, fun h => by omega⟩
    · refine (tagFrom_pairwise_idx (mid + 1) r).imp_of_mem ?_
      intro a b ha hb hab
      have := memR b hb
      exact ⟨fun _ => hab, fun _ h => by omega⟩
    · exact tagFrom_pairwise_val left l s1
    · exact tagFrom_pairwise_val (mid + 1) r s2
    · intro x hx z hz _
      have h1 := memL x hx
      have h2 := memR z hz
      exact ⟨fun h => by omega, fun h => by omega⟩
    · intro y hy z hz hyz
      have h1 := memR y hy
      have h2 := memL z hz
      exact ⟨fun h => by omega, fun _ _ => hyz⟩

/-- C6: `merge` is stable with respect to the left run.  Run on the array whose
cells carry their source index, `merge` computes the same values, every cell of
`[left, right]` is a copy of a source cell of `[left, right]`, two cells taken
from the same run keep their relative order, and a cell of the right run that
is placed before a cell of the left run is strictly smaller (so a left cell
always precedes the right cells of equal value).  Equivalently, the output is
the reference two-way merge of the two runs. -/
theorem merge_stable (arr : List Int) (left mid right : Int)
    (hn : (arr.length : Int) ≤ INT_MAX) (h0 : 0 ≤ left) (hlm : left ≤ mid)
    (hmr : mid < right) (hr : right < arr.length)
    (hs1 : nondecreasing arr left mid) (hs2 : nondecreasing arr (mid + 1) right) :
    merge arr left mid right
      = some (arr.take left.toNat
          ++ ref_merge id (slice arr left mid) (slice arr (mid + 1) right)
          ++ arr.drop (right + 1).toNat) ∧
    ∃ out : List (Int × Int),
      merge_gen Prod.fst (tag arr) left mid right = some out ∧
      merge arr left mid right = some (out.map Prod.fst) ∧
      (slice out left right).Perm (slice (tag arr) left right) ∧
      (∀ k : Int, left ≤ k → k ≤ right →
        ∃ c ∈ rd out k, left ≤ c.2 ∧ c.2 ≤ right ∧ rd arr c.2 = some c.1) ∧
      (∀ p q : Int, left ≤ p → p < q → q ≤ right →
        ∃ x ∈ rd out p, ∃ y ∈ rd out q,
          ((x.2 ≤ mid ↔ y.2 ≤ mid) → x.2 < y.2) ∧
          (mid < x.2 → y.2 ≤ mid → x.1 < y.1)) := by
  have hmerge : merge arr left mid right = _ :=
    merge_gen_eq id arr left mid right hn h0 hlm hmr hr
  refine ⟨hmerge, ?_⟩
  obtain ⟨e1, hl1, hr1⟩ := decompose arr left mid h0 (by omega) (by omega)
  obtain ⟨e2, hl2, hr2⟩ := decompose arr (mid + 1) right (by omega) (by omega) hr
  obtain ⟨e, hl, hr3⟩ := decompose arr left right h0 (by omega) hr
  have s1 : (slice arr left mid).Sorted (· ≤ ·) := by
    rw [← nondecreasing_iff_sorted _ _ _ left mid hl1 hr1, ← e1]; exact hs1
  have s2 : (slice arr (mid + 1) right).Sorted (· ≤ ·) := by
    rw [← nondecreasing_iff_sorted _ _ _ (mid + 1) right hl2 hr2, ← e2]; exact hs2
  have hsp := slice_split arr left mid right h0 (by omega) (by omega)
  have hlen1 := slice_length arr left mid h0 (by omega) (by omega)
  have hlen2 := slice_length arr (mid + 1) right (by omega) (by omega) hr
  rw [hsp] at e hr3
  clear hmerge e1 e2 hl1 hr1 hl2 hr2 hsp
  generalize arr.take left.toNat = pre at e hl hr3
  generalize arr.drop (right + 1).toNat = post at e
  generalize slice arr left mid = l at e hr3 s1 hlen1
  generalize slice arr (mid + 1) right = r at e hr3 s2 hlen2
  rw [List.length_append] at hr3
  have e' : arr = pre ++ l ++ r ++ post := by rw [e]; simp
  subst e'
  obtain ⟨M, hM, hMfst, hMperm, hMpw⟩ := merge_stable_decomp pre l r post left mid right hn hl
    (by omega) (by push_cast at hr3; omega) s1 s2
  have hMlen : M.length = l.length + r.length := by
    rw [hMperm.length_eq, tagFrom_length, List.length_append]
  have hPlen : ((tagFrom 0 pre).length : Int) = left := by rw [tagFrom_length]; omega
  have rdM : ∀ (k : Int) (a : Nat) (ha : a < M.length), k = left + a →
      rd (tagFrom 0 pre ++ M ++ tagFrom (right + 1) post) k = some (M.get ⟨a, ha⟩) := by
    intro k a ha hk
    rw [rd_seg (tagFrom 0 pre) M _ a k (by omega) ha, List.getElem?_eq_getElem ha]
    rfl
  refine ⟨_, hM, ?_, ?_, ?_, ?_⟩
  · rw [merge_decomp pre l r post left mid right hn hl (by omega) (by push_cast at hr3; omega)]
    simp only [List.map_append, hMfst, tagFrom_map_fst]
  · rw [slice_decomp _ _ _ left right (by omega) (by push_cast at hr3 ⊢; omega)]
    have htag : tag (pre ++ l ++ r ++ post)
        = tagFrom 0 pre ++ tagFrom left (l ++ r) ++ tagFrom (right + 1) post := by
      have hr1' : right + 1 = left + (l.length : Int) + r.length := by push_cast at hr3; omega
      simp only [tag, tagFrom_append, List.length_append, Nat.cast_add, hr1', hl, zero_add,
        List.append_assoc]
    rw [htag, slice_decomp _ _ _ left right (by omega)
      (by rw [tagFrom_length, tagFrom_length, List.length_append]; push_cast at hr3 ⊢; omega)]
    exact hMperm
  · intro k hk1 hk2
    obtain ⟨a, ha⟩ : ∃ a : Nat, k = left + a := ⟨(k - left).toNat, by omega⟩
    have hlt : a < M.length := by push_cast at hr3; omega
    refine ⟨M.get ⟨a, hlt⟩, rdM k a hlt ha, ?_⟩
    have hmem : M.get ⟨a, hlt⟩ ∈ tagFrom left (l ++ r) := hMperm.subset (List.get_mem _ _ _)
    obtain ⟨p, h1, h2, h3⟩ := mem_tagFrom left (l ++ r) _ hmem
    rw [List.length_append] at h2
    refine ⟨by omega, by push_cast at hr3; omega, ?_⟩
    rw [List.append_assoc pre l r, rd_seg pre (l ++ r) post p _ (by omega)
      (by rw [List.length_append]; exact h2)]
    exact h3
  · intro p q hp hpq hq
    obtain ⟨a, ha⟩ : ∃ a : Nat, p = left + a := ⟨(p - left).toNat, by omega⟩
    obtain ⟨b, hb⟩ : ∃ b : Nat, q = left + b := ⟨(q - left).toNat, by omega⟩
    have hblt : b < M.length := by push_cast at hr3; omega
    have halt : a < M.length := by omega
    refine ⟨M.get ⟨a, halt⟩, rdM p a halt ha, M.get ⟨b, hblt⟩, rdM q b hblt hb, ?_⟩
    exact List.pairwise_iff_get.mp hMpw ⟨a, halt⟩ ⟨b, hblt⟩ (by simp; omega)

theorem merge_stable_witness :
    ((([1, 4, 4, 9, 2, 4, 6] : List Int).length : Int) ≤ INT_MAX ∧ (0 : Int) ≤ 0 ∧
      (0 : Int) ≤ 3 ∧ (3 : Int) < 6 ∧ (6 : Int) < ([1, 4, 4, 9, 2, 4, 6] : List Int).length ∧
      nondecreasing [1, 4, 4, 9, 2, 4, 6] 0 3 ∧ nondecreasing [1, 4, 4, 9, 2, 4, 6] (3 + 1) 6) ∧
    (merge [1, 4, 4, 9, 2, 4, 6] 0 3 6
      = some (([1, 4, 4, 9, 2, 4, 6] : List Int).take (0 : Int).toNat
          ++ ref_merge id (slice [1, 4, 4, 9, 2, 4, 6] 0 3) (slice [1, 4, 4, 9, 2, 4, 6] (3 + 1) 6)
          ++ ([1, 4, 4, 9, 2, 4, 6] : List Int).drop ((6 : Int) + 1).toNat) ∧
    ∃ out : List (Int × Int),
      merge_gen Prod.fst (tag [1, 4, 4, 9, 2, 4, 6]) 0 3 6 = some out ∧
      merge [1, 4, 4, 9, 2, 4, 6] 0 3 6 = some (out.map Prod.fst) ∧
      (slice out 0 6).Perm (slice (tag [1, 4, 4, 9, 2, 4, 6]) 0 6) ∧
      (∀ k : Int, 0 ≤ k → k ≤ 6 →
        ∃ c ∈ rd out k, 0 ≤ c.2 ∧ c.2 ≤ 6 ∧ rd [1, 4, 4, 9, 2, 4, 6] c.2 = some c.1) ∧
      (∀ p q : Int, 0 ≤ p → p < q → q ≤ 6 →
        ∃ x ∈ rd out p, ∃ y ∈ rd out q,
          ((x.2 ≤ 3 ↔ y.2 ≤ 3) → x.2 < y.2) ∧
          (3 < x.2 → y.2 ≤ 3 → x.1 < y.1))) :=
  ⟨by decide, merge_stable [1, 4, 4, 9, 2, 4, 6] 0 3 6 (by decide) (by decide) (by decide)
    (by decide) (by decide) (by decide) (by decide)⟩

/-! ## Termination -/

theorem midpoint_bounds {left right mid : Int} (hm : midpoint left right = some mid)
    (h : left < right) : left ≤ mid ∧ mid < right := by
  simp only [midpoint, chk, Option.bind_eq_bind] at hm
  split at hm
  · simp only [Option.some_bind] at hm
    split at hm
    · have hd : (right - left).tdiv 2 = (right - left) / 2 :=
        Int.tdiv_eq_ediv (by omega) (by omega)
      simp only [Option.some.injEq] at hm
      omega
    · simp at hm
  · simp at hm

theorem rec_call_wf : WellFounded (fun c p : Int × Int => rec_call p c) := by
  refine Subrelation.wf ?_ (measure (fun p : Int × Int => (p.2 - p.1).toNat)).wf
  intro c p hcp
  obtain ⟨hlt, mid, hm, hc⟩ := hcp
  have hb := midpoint_bounds hm hlt
  show (c.2 - c.1).toNat < (p.2 - p.1).toNat
  rcases hc with rfl | ⟨-, rfl⟩
  · show (mid - p.1).toNat < _
    omega
  · show (p.2 - (mid + 1)).toNat < _
    omega

theorem rec_call_inv {p c : Int × Int} (h : Relation.ReflTransGen rec_call p c)
    (h0 : 0 ≤ p.1) (hmax : p.2 ≤ INT_MAX) : 0 ≤ c.1 ∧ c.2 ≤ INT_MAX := by
  induction h with
  | refl => exact ⟨h0, hmax⟩
  | tail _ hstep ih =>
    obtain ⟨hlt, mid, hm, hc⟩ := hstep
    have hb := midpoint_bounds hm hlt
    rcases hc with rfl | ⟨-, rfl⟩
    · exact ⟨ih.1, by show mid ≤ INT_MAX; omega⟩
    · exact ⟨by show 0 ≤ mid + 1; omega, ih.2⟩

theorem midpoint_defined (left right : Int) (h0 : 0 ≤ left) (hlt : left < right)
    (hmax : right ≤ INT_MAX) :
    midpoint left right = some (left + (right - left) / 2) ∧
    chk (left + (right - left) / 2 + 1) = some (left + (right - left) / 2 + 1) := by
  have hINT : INT_MAX = 2147483647 := rfl
  refine ⟨midpoint_eq left right (by simp only [INT_MIN]; omega) (by omega) hmax (by omega), ?_⟩
  apply chk_eq_some <;> simp only [INT_MIN, INT_MAX] <;> omega

/-- C7: for 32-bit `int`s `0 <= left < right`, `mid = left + (right - left) / 2`
is computed without overflow and lies in `[left, right)`, so that both child
ranges `[left, mid]` and `[mid + 1, right]` are strictly shorter than
`[left, right]`; the same holds at every call reached from `(left, right)`;
and the recursion of `mergesort_seq` and `mergesort_par` is well founded:
there is no infinite chain of nested calls, whatever the threshold (a range
whose midpoint would overflow has no defined behaviour and makes no call). -/
theorem recursion_decreases (left right : Int) (h0 : 0 ≤ left) (hlt : left < right)
    (hmax : right ≤ INT_MAX) :
    (∃ mid, midpoint left right = some mid ∧ mid = left + (right - left) / 2 ∧
      left ≤ mid ∧ mid < right ∧
      rec_call (left, right) (left, mid) ∧ rec_call (left, right) (mid + 1, right) ∧
      mid - left + 1 < right - left + 1 ∧ right - (mid + 1) + 1 < right - left + 1) ∧
    (∀ c : Int × Int, Relation.ReflTransGen rec_call (left, right) c → c.1 < c.2 →
      ∃ mid, midpoint c.1 c.2 = some mid ∧ chk (mid + 1) = some (mid + 1) ∧
        c.1 ≤ mid ∧ mid < c.2) ∧
    WellFounded (fun c p : Int × Int => rec_call p c) := by
  refine ⟨?_, ?_, rec_call_wf⟩
  · obtain ⟨hm, c1⟩ := midpoint_defined left right h0 hlt hmax
    refine ⟨_, hm, rfl, by omega, by omega, ?_, ?_, by omega, by omega⟩
    · exact ⟨hlt, _, hm, Or.inl rfl⟩
    · exact ⟨hlt, _, hm, Or.inr ⟨c1, rfl⟩⟩
  · intro c hc hclt
    obtain ⟨i1, i2⟩ := rec_call_inv hc h0 hmax
    obtain ⟨hm, c1⟩ := midpoint_defined c.1 c.2 i1 hclt i2
    exact ⟨_, hm, c1, by omega, by omega⟩

theorem recursion_decreases_witness :
    ((0 : Int) ≤ 0 ∧ (0 : Int) < 2147483647 ∧ (2147483647 : Int) ≤ INT_MAX) ∧
    ((∃ mid, midpoint 0 2147483647 = some mid ∧ mid = 0 + (2147483647 - 0) / 2 ∧
      0 ≤ mid ∧ mid < 2147483647 ∧
      rec_call (0, 2147483647) (0, mid) ∧ rec_call (0, 2147483647) (mid + 1, 2147483647) ∧
      mid - 0 + 1 < 2147483647 - 0 + 1 ∧ 2147483647 - (mid + 1) + 1 < 2147483647 - 0 + 1) ∧
    (∀ c : Int × Int, Relation.ReflTransGen rec_call (0, 2147483647) c → c.1 < c.2 →
      ∃ mid, midpoint c.1 c.2 = some mid ∧ chk (mid + 1) = some (mid + 1) ∧
        c.1 ≤ mid ∧ mid < c.2) ∧
    WellFounded (fun c p : Int × Int => rec_call p c)) :=
  ⟨by decide, recursion_decreases 0 2147483647 (by decide) (by decide) (by decide)⟩

/-! ## Already sorted input -/

/-- C8: when `arr[left..right]` is already non-decreasing (which includes the
ranges with `left > right` and `left = right`), `mergesort_seq` and
`mergesort_par`, for every threshold, return the array unchanged. -/
theorem sort_sorted_unchanged (arr : List Int) (left right : Int)
    (hn : (arr.length : Int) ≤ INT_MAX) (hs : nondecreasing arr left right) :
    mergesort_seq arr left right = some arr ∧
    ∀ threshold : Int, mergesort_par arr left right threshold = some arr := by
  by_cases hlr : right ≤ left
  · exact ⟨mergesort_seq_base arr hlr, fun t => mergesort_par_base arr t hlr⟩
  · have h0 : 0 ≤ left := by
      obtain ⟨a, ha, -⟩ := hs left (by omega) (by omega)
      by_contra hneg
      simp [rd, hneg] at ha
    have hr : right < arr.length := by
      obtain ⟨-, -, b, hb, -⟩ := hs (right - 1) (by omega) (by omega)
      by_contra hge
      have e : right - 1 + 1 = right := by omega
      rw [e] at hb
      have : arr[right.toNat]? = none := List.getElem?_eq_none (by omega)
      simp [rd, this] at hb
    obtain ⟨e, hl, hr2⟩ := decompose arr left right h0 (by omega) hr
    have hsorted : (slice arr left right).Sorted (· ≤ ·) := by
      rw [← nondecreasing_iff_sorted _ _ _ left right hl hr2, ← e]; exact hs
    have hout : arr.take left.toNat ++ (slice arr left right).insertionSort (· ≤ ·)
        ++ arr.drop (right + 1).toNat = arr := by
      rw [hsorted.insertionSort_eq, ← e]
    refine ⟨?_, fun t => ?_⟩
    · rw [mergesort_seq_eq arr left right hn h0 (by omega) hr, hout]
    · rw [mergesort_par_eq arr left right t hn h0 (by omega) hr, hout]

theorem sort_sorted_unchanged_witness :
    ((([9, 1, 2, 2, 7, 0] : List Int).length : Int) ≤ INT_MAX ∧
      nondecreasing [9, 1, 2, 2, 7, 0] 1 4) ∧
    (mergesort_seq [9, 1, 2, 2, 7, 0] 1 4 = some [9, 1, 2, 2, 7, 0] ∧
    ∀ threshold : Int, mergesort_par [9, 1, 2, 2, 7, 0] 1 4 threshold
      = some [9, 1, 2, 2, 7, 0]) :=
  ⟨by decide, sort_sorted_unchanged [9, 1, 2, 2, 7, 0] 1 4 (by decide) (by decide)⟩

/-! ## The calls of `merge` made by the sorts -/

theorem mergesort_seq_none (arr : List Int) {left right : Int} (h : left < right)
    (hm : midpoint left right = none) : mergesort_seq arr left right = none := by
  rw [mergesort_seq]
  simp only [h, dite_true]
  split
  · rfl
  · rename_i m hm2; rw [hm] at hm2; simp at hm2

theorem mergesort_seq_trace_base (arr : List Int) {left right : Int} (h : right ≤ left) :
    mergesort_seq_trace arr left right = some (arr, []) := by
  rw [mergesort_seq_trace]
  have : ¬ left < right := by omega
  simp [this]

theorem mergesort_seq_trace_none (arr : List Int) {left right : Int} (h : left < right)
    (hm : midpoint left right = none) : mergesort_seq_trace arr left right = none := by
  rw [mergesort_seq_trace]
  simp only [h, dite_true]
  split
  · rfl
  · rename_i m hm2; rw [hm] at hm2; simp at hm2

theorem mergesort_seq_trace_unfold (arr : List Int) {left right mid : Int} (h : left < right)
    (hm : midpoint left right = some mid) :
    mergesort_seq_trace arr left right
      = (mergesort_seq_trace arr left mid).bind (fun r1 =>
          (chk (mid + 1)).bind (fun _ =>
            (mergesort_seq_trace r1.1 (mid + 1) right).bind (fun r2 =>
              (merge r2.1 left mid right).bind (fun a3 =>
                some (a3, r1.2 ++ r2.2 ++ [MergeCall.mk r2.1 left mid right]))))) := by
  rw [mergesort_seq_trace]
  simp only [h, dite_true]
  split
  · rename_i hm2; rw [hm] at hm2; simp at hm2
  · rename_i m hm2
    rw [hm] at hm2
    cases hm2
    rfl

/-- Forgetting the recorded calls, the instrumented `mergesort_seq` is
`mergesort_seq`, on every input. -/
theorem mergesort_seq_trace_fst (m : Nat) :
    ∀ (arr : List Int) (left right : Int), (right - left).toNat ≤ m →
    (mergesort_seq_trace arr left right).map Prod.fst = mergesort_seq arr left right := by
  induction m with
  | zero =>
    intro arr left right hm
    rw [mergesort_seq_trace_base arr (by omega), mergesort_seq_base arr (by omega)]
    rfl
  | succ m ih =>
    intro arr left right hm
    by_cases hlt : left < right
    · cases hmid : midpoint left right with
      | none => rw [mergesort_seq_trace_none arr hlt hmid, mergesort_seq_none arr hlt hmid]; rfl
      | some mid =>
        have hb := midpoint_bounds hmid hlt
        rw [mergesort_seq_trace_unfold arr hlt hmid, mergesort_seq_unfold arr hlt hmid,
          ← ih arr left mid (by omega)]
        cases h1 : mergesort_seq_trace arr left mid with
        | none => rfl
        | some r1 =>
          simp only [Option.some_bind, Option.map_some']
          cases h2 : chk (mid + 1) with
          | none => rfl
          | some u =>
            simp only [Option.some_bind]
            rw [← ih r1.1 (mid + 1) right (by omega)]
            cases h3 : mergesort_seq_trace r1.1 (mid + 1) right with
            | none => rfl
            | some r2 =>
              simp only [Option.some_bind, Option.map_some']
              cases h4 : merge r2.1 left mid right <;> rfl
    · rw [mergesort_seq_trace_base arr (by omega), mergesort_seq_base arr (by omega)]
      rfl

theorem mergesort_par_def (arr : List Int) (left right threshold : Int) :
    mergesort_par arr left right threshold
      = if left < right then
          (chk (right - left)).bind (fun d =>
            if d < threshold then mergesort_seq arr left right
            else (midpoint left right).bind (fun mid =>
              (mergesort_par arr left mid threshold).bind (fun a1 =>
                (chk (mid + 1)).bind (fun _ =>
                  (mergesort_par a1 (mid + 1) right threshold).bind (fun a2 =>
                    merge a2 left mid right)))))
        else some arr := by
  rw [mergesort_par]
  by_cases h : left < right
  · simp only [h, dite_true, if_true, Option.bind_eq_bind]
    congr 1
    funext d
    split
    · rfl
    · split
      · rename_i hm; rw [hm]; rfl
      · rename_i mid hm; rw [hm]; rfl
  · simp only [h, dite_false, if_false]

theorem mergesort_par_trace_def (arr : List Int) (left right threshold : Int) :
    mergesort_par_trace arr left right threshold
      = if left < right then
          (chk (right - left)).bind (fun d =>
            if d < threshold then mergesort_seq_trace arr left right
            else (midpoint left right).bind (fun mid =>
              (mergesort_par_trace arr left mid threshold).bind (fun r1 =>
                (chk (mid + 1)).bind (fun _ =>
                  (mergesort_par_trace r1.1 (mid + 1) right threshold).bind (fun r2 =>
                    (merge r2.1 left mid right).bind (fun a3 =>
                      some (a3, r1.2 ++ r2.2 ++ [MergeCall.mk r2.1 left mid right])))))))
        else some (arr, []) := by
  rw [mergesort_par_trace]
  by_cases h : left < right
  · simp only [h, dite_true, if_true, Option.bind_eq_bind]
    congr 1
    funext d
    split
    · rfl
    · split
      · rename_i hm; rw [hm]; rfl
      · rename_i mid hm; rw [hm]; rfl
  · simp only [h, dite_false, if_false]

/-- Forgetting the recorded calls, the instrumented `mergesort_par` is
`mergesort_par`, on every input. -/
theorem mergesort_par_trace_fst (threshold : Int) (m : Nat) :
    ∀ (arr : List Int) (left right : Int), (right - left).toNat ≤ m →
    (mergesort_par_trace arr left right threshold).map Prod.fst
      = mergesort_par arr left right threshold := by
  induction m with
  | zero =>
    intro arr left right hm
    have : ¬ left < right := by omega
    rw [mergesort_par_trace_def, mergesort_par_def]
    simp [this]
  | succ m ih =>
    intro arr left right hm
    rw [mergesort_par_trace_def, mergesort_par_def]
    by_cases hlt : left < right
    · simp only [hlt, if_true]
      cases hd : chk (right - left) with
      | none => rfl
      | some d =>
        simp only [Option.some_bind]
        by_cases ht : d < threshold
        · simp only [ht, if_true]
          exact mergesort_seq_trace_fst _ arr left right le_rfl
        · simp only [ht, if_false]
          cases hmid : midpoint left right with
          | none => rfl
          | some mid =>
            have hb := midpoint_bounds hmid hlt
            simp only [Option.some_bind]
            rw [← ih arr left mid (by omega)]
            cases h1 : mergesort_par_trace arr left mid threshold with
            | none => rfl
            | some r1 =>
              simp only [Option.some_bind, Option.map_some']
              cases h2 : chk (mid + 1) with
              | none => rfl
              | some u =>
                simp only [Option.some_bind]
                rw [← ih r1.1 (mid + 1) right (by omega)]
                cases h3 : mergesort_par_trace r1.1 (mid + 1) right threshold with
                | none => rfl
                | some r2 =>
                  simp only [Option.some_bind, Option.map_some']
                  cases h4 : merge r2.1 left mid right <;> rfl
    · simp [hlt]

theorem call_ok_mono {lo hi lo2 hi2 : Int} {c : MergeCall} (h : call_ok lo hi c)
    (h1 : lo2 ≤ lo) (h2 : hi ≤ hi2) : call_ok lo2 hi2 c := by
  obtain ⟨a1, a2, a3, a4, a5, a6, a7, a8⟩ := h
  exact ⟨a1, a2, a3, a4, by omega, by omega, a7, a8⟩

/-- The call of `merge` that ends a sort of `[left, right]` whose two halves
have been sorted. -/
theorem call_ok_last (pre s1 s2 post : List Int) (left mid right : Int)
    (hl : left = pre.length) (hmid : mid = (pre.length : Int) + s1.length - 1)
    (hr : right = (pre.length : Int) + s1.length + s2.length - 1)
    (h1 : 1 ≤ s1.length) (h2 : 1 ≤ s2.length) :
    call_ok left right (MergeCall.mk
      (pre ++ (s1.insertionSort (· ≤ ·) ++ (s2.insertionSort (· ≤ ·) ++ post)))
      left mid right) := by
  refine ⟨by show left ≤ mid; omega, by show mid < right; omega,
    by show 1 ≤ mid - left + 1; omega, by show 1 ≤ right - mid; omega, le_rfl, le_rfl, ?_, ?_⟩
  · show nondecreasing _ left mid
    rw [← List.append_assoc]
    rw [nondecreasing_iff_sorted pre _ _ left mid hl
      (by rw [List.length_insertionSort]; exact hmid)]
    exact List.sorted_insertionSort (· ≤ ·) _
  · show nondecreasing _ (mid + 1) right
    rw [← List.append_assoc, ← List.append_assoc]
    rw [nondecreasing_iff_sorted (pre ++ s1.insertionSort (· ≤ ·)) _ _ (mid + 1) right
      (by rw [List.length_append, List.length_insertionSort]; push_cast; omega)
      (by rw [List.length_append, List.length_insertionSort, List.length_insertionSort]
          push_cast; omega)]
    exact List.sorted_insertionSort (· ≤ ·) _

/-- The instrumented `mergesort_seq` on `pre ++ seg ++ post`: it returns the
sorted array, and every recorded call of `merge` meets the precondition. -/
theorem mergesort_seq_trace_decomp (m : Nat) :
    ∀ (pre seg post : List Int) (left right : Int),
    seg.length ≤ m →
    ((pre ++ seg ++ post).length : Int) ≤ INT_MAX →
    left = pre.length →
    right = (pre.length : Int) + seg.length - 1 →
    ∃ tr, mergesort_seq_trace (pre ++ seg ++ post) left right
        = some (pre ++ seg.insertionSort (· ≤ ·) ++ post, tr) ∧
      (left ≤ right → (tr.length : Int) = right - left) ∧
      ∀ c ∈ tr, call_ok left right c := by
  induction m with
  | zero =>
    intro pre seg post left right hm hmax hl hr
    have : seg = [] := List.length_eq_zero.mp (by omega)
    subst this
    refine ⟨[], ?_, ?_, by simp⟩
    · rw [mergesort_seq_trace_base _ (by simp at hr; omega)]
      simp
    · intro h; simp at hr; omega
  | succ m ih =>
    intro pre seg post left right hm hmax hl hr
    by_cases hlen : seg.length ≤ 1
    · refine ⟨[], ?_, ?_, by simp⟩
      · rw [mergesort_seq_trace_base _ (by omega)]
        match seg, hlen with
        | [], _ => simp
        | [x], _ => simp
        | _ :: _ :: _, h => simp at h
      · intro h; simp; omega
    · have hlt : left < right := by omega
      simp only [List.length_append, Nat.cast_add] at hmax
      have hINT : INT_MAX = 2147483647 := rfl
      have hmid := midpoint_eq left right
        (by simp only [INT_MIN]; omega) (by omega) (by omega) (by omega)
      obtain ⟨h, hh⟩ : ∃ h : Nat, (h : Int) = (right - left) / 2 + 1 :=
        ⟨((right - left) / 2 + 1).toNat, by omega⟩
      have hsplit : seg.take h ++ seg.drop h = seg := List.take_append_drop h seg
      have h1len : (seg.take h).length = h := by
        rw [List.length_take]; omega
      have h2len : (seg.drop h).length = seg.length - h := by
        rw [List.length_drop]
      generalize hs1 : seg.take h = s1 at hsplit h1len
      generalize hs2 : seg.drop h = s2 at hsplit h2len
      subst hsplit
      simp only [List.length_append, Nat.cast_add] at hm hmax hr hlen h2len
      obtain ⟨tr1, e1, n1, ok1⟩ := ih pre s1 (s2 ++ post) left (left + (right - left) / 2)
        (by omega) (by simp; omega) hl (by omega)
      obtain ⟨tr2, e2, n2, ok2⟩ := ih (pre ++ s1.insertionSort (· ≤ ·)) s2 post
        (left + (right - left) / 2 + 1) right
        (by omega) (by simp [List.length_insertionSort]; omega)
        (by simp [List.length_insertionSort]; omega)
        (by simp [List.length_insertionSort]; omega)
      have c1 : chk (left + (right - left) / 2 + 1) = some (left + (right - left) / 2 + 1) := by
        apply chk_eq_some <;> simp only [INT_MIN, INT_MAX] <;> omega
      have e3 := merge_decomp pre (s1.insertionSort (· ≤ ·)) (s2.insertionSort (· ≤ ·)) post
        left (left + (right - left) / 2) right
        (by simp [List.length_insertionSort]; omega) hl
        (by simp [List.length_insertionSort]; omega)
        (by simp [List.length_insertionSort]; omega)
      refine ⟨tr1 ++ tr2 ++ [MergeCall.mk
        (pre ++ (s1.insertionSort (· ≤ ·) ++ (s2.insertionSort (· ≤ ·) ++ post)))
        left (left + (right - left) / 2) right], ?_, ?_, ?_⟩
      · rw [mergesort_seq_trace_unfold _ hlt hmid]
        simp only [List.append_assoc] at e1 e2 e3 ⊢
        rw [e1]
        simp only [Option.some_bind, c1]
        rw [e2]
        simp only [Option.some_bind]
        rw [e3, ref_merge_eq_sort]
        simp
      · intro _
        have := n1 (by omega)
        have := n2 (by omega)
        simp only [List.length_append, List.length_singleton, Nat.cast_add, Nat.cast_one]
        omega
      · intro c hc
        simp only [List.mem_append, List.mem_singleton] at hc
        rcases hc with (hc | hc) | rfl
        · exact call_ok_mono (ok1 c hc) le_rfl (by omega)
        · exact call_ok_mono (ok2 c hc) (by omega) le_rfl
        · exact call_ok_last pre s1 s2 post left _ right hl (by omega) (by omega)
            (by omega) (by omega)

/-- The instrumented `mergesort_par` on `pre ++ seg ++ post`, for every
threshold: it returns the sorted array, and every recorded call of `merge`
meets the precondition. -/
theorem mergesort_par_trace_decomp (threshold : Int) (m : Nat) :
    ∀ (pre seg post : List Int) (left right : Int),
    seg.length ≤ m →
    ((pre ++ seg ++ post).length : Int) ≤ INT_MAX →
    left = pre.length →
    right = (pre.length : Int) + seg.length - 1 →
    ∃ tr, mergesort_par_trace (pre ++ seg ++ post) left right threshold
        = some (pre ++ seg.insertionSort (· ≤ ·) ++ post, tr) ∧
      (left ≤ right → (tr.length : Int) = right - left) ∧
      ∀ c ∈ tr, call_ok left right c := by
  induction m with
  | zero =>
    intro pre seg post left right hm hmax hl hr
    have : seg = [] := List.length_eq_zero.mp (by omega)
    subst this
    have hnlt : ¬ left < right := by simp at hr; omega
    refine ⟨[], ?_, ?_, by simp⟩
    · rw [mergesort_par_trace_def]
      simp [hnlt]
    · intro h; simp at hr; omega
  | succ m ih =>
    intro pre seg post left right hm hmax hl hr
    by_cases hlen : seg.length ≤ 1
    · have hnlt : ¬ left < right := by omega
      refine ⟨[], ?_, ?_, by simp⟩
      · rw [mergesort_par_trace_def]
        simp only [hnlt, if_false]
        match seg, hlen with
        | [], _ => simp
        | [x], _ => simp
        | _ :: _ :: _, h => simp at h
      · intro h; simp; omega
    · have hlt : left < right := by omega
      have hmax0 := hmax
      simp only [List.length_append, Nat.cast_add] at hmax
      have hINT : INT_MAX = 2147483647 := rfl
      have hd : chk (right - left) = some (right - left) := by
        apply chk_eq_some <;> simp only [INT_MIN, INT_MAX] <;> omega
      by_cases ht : right - left < threshold
      · obtain ⟨tr, e, n, ok⟩ := mergesort_seq_trace_decomp seg.length pre seg post left right
          le_rfl hmax0 hl hr
        refine ⟨tr, ?_, n, ok⟩
        rw [mergesort_par_trace_def]
        simp only [hlt, if_true, hd, Option.some_bind, ht]
        exact e
      have hmid := midpoint_eq left right
        (by simp only [INT_MIN]; omega) (by omega) (by omega) (by omega)
      obtain ⟨h, hh⟩ : ∃ h : Nat, (h : Int) = (right - left) / 2 + 1 :=
        ⟨((right - left) / 2 + 1).toNat, by omega⟩
      have hsplit : seg.take h ++ seg.drop h = seg := List.take_append_drop h seg
      have h1len : (seg.take h).length = h := by
        rw [List.length_take]; omega
      have h2len : (seg.drop h).length = seg.length - h := by
        rw [List.length_drop]
      generalize hs1 : seg.take h = s1 at hsplit h1len
      generalize hs2 : seg.drop h = s2 at hsplit h2len
      subst hsplit
      simp only [List.length_append, Nat.cast_add] at hm hmax hr hlen h2len
      obtain ⟨tr1, e1, n1, ok1⟩ := ih pre s1 (s2 ++ post) left (left + (right - left) / 2)
        (by omega) (by simp; omega) hl (by omega)
      obtain ⟨tr2, e2, n2, ok2⟩ := ih (pre ++ s1.insertionSort (· ≤ ·)) s2 post
        (left + (right - left) / 2 + 1) right
        (by omega) (by simp [List.length_insertionSort]; omega)
        (by simp [List.length_insertionSort]; omega)
        (by simp [List.length_insertionSort]; omega)
      have c1 : chk (left + (right - left) / 2 + 1) = some (left + (right - left) / 2 + 1) := by
        apply chk_eq_some <;> simp only [INT_MIN, INT_MAX] <;> omega
      have e3 := merge_decomp pre (s1.insertionSort (· ≤ ·)) (s2.insertionSort (· ≤ ·)) post
        left (left + (right - left) / 2) right
        (by simp [List.length_insertionSort]; omega) hl
        (by simp [List.length_insertionSort]; omega)
        (by simp [List.length_insertionSort]; omega)
      refine ⟨tr1 ++ tr2 ++ [MergeCall.mk
        (pre ++ (s1.insertionSort (· ≤ ·) ++ (s2.insertionSort (· ≤ ·) ++ post)))
        left (left + (right - left) / 2) right], ?_, ?_, ?_⟩
      · rw [mergesort_par_trace_def]
        simp only [hlt, if_true, hd, Option.some_bind, ht, if_false, hmid]
        simp only [List.append_assoc] at e1 e2 e3 ⊢
        rw [e1]
        simp only [Option.some_bind, c1]
        rw [e2]
        simp only [Option.some_bind]
        rw [e3, ref_merge_eq_sort]
        simp
      · intro _
        have := n1 (by omega)
        have := n2 (by omega)
        simp only [List.length_append, List.length_singleton, Nat.cast_add, Nat.cast_one]
        omega
      · intro c hc
        simp only [List.mem_append, List.mem_singleton] at hc
        rcases hc with (hc | hc) | rfl
        · exact call_ok_mono (ok1 c hc) le_rfl (by omega)
        · exact call_ok_mono (ok2 c hc) (by omega) le_rfl
        · exact call_ok_last pre s1 s2 post left _ right hl (by omega) (by omega)
            (by omega) (by omega)

/-- C9: for every array, every in-bounds range and every threshold, every call
of `merge` made during `mergesort_seq` or `mergesort_par` meets the
precondition of `merge` at the moment of the call: `l <= m < r`, both scratch
lengths at least 1, `left <= l`, `r <= right`, and both runs of the array as
it is then non-decreasing.  The instrumented sorts compute what the sorts
compute, and a non-empty range of `k + 1` cells makes `k` calls. -/
theorem merge_calls_ok (arr : List Int) (left right threshold : Int)
    (hn : (arr.length : Int) ≤ INT_MAX) (h0 : 0 ≤ left) (hlr : left ≤ right)
    (hr : right < arr.length) :
    (∃ out tr, mergesort_seq_trace arr left right = some (out, tr) ∧
      mergesort_seq arr left right = some out ∧
      (tr.length : Int) = right - left ∧
      ∀ c ∈ tr, call_ok left right c) ∧
    (∃ out tr, mergesort_par_trace arr left right threshold = some (out, tr) ∧
      mergesort_par arr left right threshold = some out ∧
      (tr.length : Int) = right - left ∧
      ∀ c ∈ tr, call_ok left right c) := by
  obtain ⟨e, hl, hr2⟩ := decompose arr left right h0 (by omega) hr
  constructor
  · obtain ⟨tr, h1, h2, h3⟩ := mergesort_seq_trace_decomp (slice arr left right).length
      (arr.take left.toNat) (slice arr left right) (arr.drop (right + 1).toNat) left right
      le_rfl (by rw [← e]; exact hn) hl hr2
    rw [← e] at h1
    refine ⟨_, tr, h1, ?_, h2 hlr, h3⟩
    rw [← mergesort_seq_trace_fst _ arr left right le_rfl, h1]
    rfl
  · obtain ⟨tr, h1, h2, h3⟩ := mergesort_par_trace_decomp threshold
      (slice arr left right).length
      (arr.take left.toNat) (slice arr left right) (arr.drop (right + 1).toNat) left right
      le_rfl (by rw [← e]; exact hn) hl hr2
    rw [← e] at h1
    refine ⟨_, tr, h1, ?_, h2 hlr, h3⟩
    rw [← mergesort_par_trace_fst threshold _ arr left right le_rfl, h1]
    rfl

theorem merge_calls_ok_witness :
    ((([5, 3, 8, 1] : List Int).length : Int) ≤ INT_MAX ∧ (0 : Int) ≤ 0 ∧ (0 : Int) ≤ 3 ∧
      (3 : Int) < ([5, 3, 8, 1] : List Int).length) ∧
    ((∃ out tr, mergesort_seq_trace [5, 3, 8, 1] 0 3 = some (out, tr) ∧
      mergesort_seq [5, 3, 8, 1] 0 3 = some out ∧
      (tr.length : Int) = 3 - 0 ∧
      ∀ c ∈ tr, call_ok 0 3 c) ∧
    (∃ out tr, mergesort_par_trace [5, 3, 8, 1] 0 3 2 = some (out, tr) ∧
      mergesort_par [5, 3, 8, 1] 0 3 2 = some out ∧
      (tr.length : Int) = 3 - 0 ∧
      ∀ c ∈ tr, call_ok 0 3 c)) :=
  ⟨by decide, merge_calls_ok [5, 3, 8, 1] 0 3 2 (by decide) (by decide) (by decide)
    (by decide)⟩

/-! ## Independence of the two halves -/

theorem slice_congr (a b : List Int) (lo hi : Int) (h0 : 0 ≤ lo) (hlh : lo ≤ hi + 1)
    (ha : hi < a.length) (hlen : b.length = a.length)
    (h : ∀ k : Int, lo ≤ k → k ≤ hi → rd b k = rd a k) :
    slice b lo hi = slice a lo hi := by
  obtain ⟨ea, hla, hra⟩ := decompose a lo hi h0 hlh ha
  obtain ⟨eb, hlb, hrb⟩ := decompose b lo hi h0 hlh (by omega)
  apply List.ext_getElem?
  intro p
  by_cases hp : p < (slice a lo hi).length
  · have hk := h (lo + p) (by omega) (by omega)
    rw [ea, eb] at hk
    rw [rd_seg _ _ _ p (lo + p) (by omega) (by omega),
      rd_seg _ _ _ p (lo + p) (by omega) hp] at hk
    exact hk
  · rw [List.getElem?_eq_none (by omega), List.getElem?_eq_none (by omega)]

theorem local_to_of_eq (f : List Int → Option (List Int)) (g : List Int → List Int)
    (arr : List Int) (lo hi : Int) (h0 : 0 ≤ lo) (hlh : lo ≤ hi + 1) (hhi : hi < arr.length)
    (hg : ∀ s, (g s).length = s.length)
    (hf : ∀ a : List Int, a.length = arr.length →
      f a = some (a.take lo.toNat ++ g (slice a lo hi) ++ a.drop (hi + 1).toNat)) :
    local_to f arr lo hi := by
  have frame : ∀ a : List Int, a.length = arr.length →
      (a.take lo.toNat ++ g (slice a lo hi) ++ a.drop (hi + 1).toNat).length = a.length ∧
      (∀ k : Int, k < lo ∨ hi < k →
        rd (a.take lo.toNat ++ g (slice a lo hi) ++ a.drop (hi + 1).toNat) k = rd a k) ∧
      (∀ k : Int, lo ≤ k → k ≤ hi →
        rd (a.take lo.toNat ++ g (slice a lo hi) ++ a.drop (hi + 1).toNat) k
          = (g (slice a lo hi))[(k - lo).toNat]?) := by
    intro a ha
    obtain ⟨e, hl, hr3⟩ := decompose a lo hi h0 hlh (by omega)
    have hlen := hg (slice a lo hi)
    generalize g (slice a lo hi) = M at hlen
    generalize a.take lo.toNat = pre at e hl hr3
    generalize a.drop (hi + 1).toNat = post at e
    generalize slice a lo hi = seg at e hr3 hlen
    subst e
    refine ⟨by simp only [List.length_append, hlen], ?_, ?_⟩
    · intro k hk
      rcases hk with hk | hk
      · rw [List.append_assoc, List.append_assoc, rd_pre _ _ _ (by omega),
          rd_pre _ _ _ (by omega)]
      · obtain ⟨p, hp⟩ : ∃ p : Nat, k = hi + 1 + p := ⟨(k - (hi + 1)).toNat, by omega⟩
        rw [rd_post (pre ++ M) post p k (by rw [List.length_append]; omega),
          rd_post (pre ++ seg) post p k (by rw [List.length_append]; omega)]
    · intro k hk1 hk2
      exact rd_seg pre M post (k - lo).toNat k (by omega) (by omega)
  obtain ⟨f1, f2, f3⟩ := frame arr rfl
  refine ⟨_, hf arr rfl, f1, f2, ?_⟩
  intro arr2 hlen hsame
  refine ⟨_, hf arr2 hlen, ?_⟩
  intro k hk1 hk2
  rw [(frame arr2 hlen).2.2 k hk1 hk2, f3 k hk1 hk2,
    slice_congr arr arr2 lo hi h0 hlh hhi hlen hsame]

theorem mergesort_seq_local (arr : List Int) (lo hi : Int)
    (hn : (arr.length : Int) ≤ INT_MAX) (h0 : 0 ≤ lo) (hlh : lo ≤ hi + 1)
    (hhi : hi < arr.length) :
    local_to (fun a => mergesort_seq a lo hi) arr lo hi :=
  local_to_of_eq _ (fun s => s.insertionSort (· ≤ ·)) arr lo hi h0 hlh hhi
    (fun s => List.length_insertionSort _ s)
    (fun a ha => mergesort_seq_eq a lo hi (by omega) h0 hlh (by omega))

theorem mergesort_par_local (arr : List Int) (lo hi threshold : Int)
    (hn : (arr.length : Int) ≤ INT_MAX) (h0 : 0 ≤ lo) (hlh : lo ≤ hi + 1)
    (hhi : hi < arr.length) :
    local_to (fun a => mergesort_par a lo hi threshold) arr lo hi :=
  local_to_of_eq _ (fun s => s.insertionSort (· ≤ ·)) arr lo hi h0 hlh hhi
    (fun s => List.length_insertionSort _ s)
    (fun a ha => mergesort_par_eq a lo hi threshold (by omega) h0 hlh (by omega))

/-- Sorting the two halves of `pre ++ s1 ++ s2 ++ post` in either order. -/
theorem halves_commute_decomp (threshold : Int) (pre s1 s2 post : List Int)
    (left mid right : Int)
    (hmax : ((pre ++ s1 ++ s2 ++ post).length : Int) ≤ INT_MAX)
    (hleft : left = pre.length)
    (hmid : mid = (pre.length : Int) + s1.length - 1)
    (hright : right = (pre.length : Int) + s1.length + s2.length - 1) :
    (mergesort_par (pre ++ s1 ++ s2 ++ post) left mid threshold).bind
        (fun a => mergesort_par a (mid + 1) right threshold)
      = some (pre ++ s1.insertionSort (· ≤ ·) ++ s2.insertionSort (· ≤ ·) ++ post) ∧
    (mergesort_par (pre ++ s1 ++ s2 ++ post) (mid + 1) right threshold).bind
        (fun a => mergesort_par a left mid threshold)
      = some (pre ++ s1.insertionSort (· ≤ ·) ++ s2.insertionSort (· ≤ ·) ++ post) ∧
    (mergesort_seq (pre ++ s1 ++ s2 ++ post) left mid).bind
        (fun a => mergesort_seq a (mid + 1) right)
      = some (pre ++ s1.insertionSort (· ≤ ·) ++ s2.insertionSort (· ≤ ·) ++ post) ∧
    (mergesort_seq (pre ++ s1 ++ s2 ++ post) (mid + 1) right).bind
        (fun a => mergesort_seq a left mid)
      = some (pre ++ s1.insertionSort (· ≤ ·) ++ s2.insertionSort (· ≤ ·) ++ post) := by
  simp only [List.length_append, Nat.cast_add] at hmax
  have pA := mergesort_par_decomp threshold s1.length pre s1 (s2 ++ post) left mid le_rfl
    (by simp; omega) hleft hmid
  have pB := mergesort_par_decomp threshold s2.length (pre ++ s1.insertionSort (· ≤ ·)) s2 post
    (mid + 1) right le_rfl (by simp [List.length_insertionSort]; omega)
    (by simp [List.length_insertionSort]; omega) (by simp [List.length_insertionSort]; omega)
  have pB' := mergesort_par_decomp threshold s2.length (pre ++ s1) s2 post
    (mid + 1) right le_rfl (by simp; omega) (by simp; omega) (by simp; omega)
  have pA' := mergesort_par_decomp threshold s1.length pre s1 (s2.insertionSort (· ≤ ·) ++ post)
    left mid le_rfl (by simp [List.length_insertionSort]; omega) hleft hmid
  have qA := mergesort_seq_decomp s1.length pre s1 (s2 ++ post) left mid le_rfl
    (by simp; omega) hleft hmid
  have qB := mergesort_seq_decomp s2.length (pre ++ s1.insertionSort (· ≤ ·)) s2 post
    (mid + 1) right le_rfl (by simp [List.length_insertionSort]; omega)
    (by simp [List.length_insertionSort]; omega) (by simp [List.length_insertionSort]; omega)
  have qB' := mergesort_seq_decomp s2.length (pre ++ s1) s2 post
    (mid + 1) right le_rfl (by simp; omega) (by simp; omega) (by simp; omega)
  have qA' := mergesort_seq_decomp s1.length pre s1 (s2.insertionSort (· ≤ ·) ++ post)
    left mid le_rfl (by simp [List.length_insertionSort]; omega) hleft hmid
  simp only [List.append_assoc] at pA pB pB' pA' qA qB qB' qA' ⊢
  refine ⟨?_, ?_, ?_, ?_⟩
  · rw [pA, Option.some_bind, pB]
  · rw [pB', Option.some_bind, pA']
  · rw [qA, Option.some_bind, qB]
  · rw [qB', Option.some_bind, qA']

/-- C10: the two halves of a sort are independent.  For every array, every
in-bounds `left < right` with `mid = left + (right - left) / 2` and every
threshold, the sort of `[left, mid]` is confined to `[left, mid]` and the sort
of `[mid + 1, right]` to `[mid + 1, right]` (no cell outside is changed, the
result inside depends only on the cells inside); running the two sorts in
either order yields the same array `a2`, and that array is the one `merge` is
applied to. -/
theorem halves_independent (arr : List Int) (left right threshold : Int)
    (hn : (arr.length : Int) ≤ INT_MAX) (h0 : 0 ≤ left) (hlt : left < right)
    (hr : right < arr.length) :
    ∃ mid, midpoint left right = some mid ∧ mid = left + (right - left) / 2 ∧
      local_to (fun a => mergesort_par a left mid threshold) arr left mid ∧
      local_to (fun a => mergesort_par a (mid + 1) right threshold) arr (mid + 1) right ∧
      local_to (fun a => mergesort_seq a left mid) arr left mid ∧
      local_to (fun a => mergesort_seq a (mid + 1) right) arr (mid + 1) right ∧
      ∃ a2,
        (mergesort_par arr left mid threshold).bind
          (fun a => mergesort_par a (mid + 1) right threshold) = some a2 ∧
        (mergesort_par arr (mid + 1) right threshold).bind
          (fun a => mergesort_par a left mid threshold) = some a2 ∧
        (mergesort_seq arr left mid).bind
          (fun a => mergesort_seq a (mid + 1) right) = some a2 ∧
        (mergesort_seq arr (mid + 1) right).bind
          (fun a => mergesort_seq a left mid) = some a2 ∧
        mergesort_seq arr left right = merge a2 left mid right ∧
        mergesort_par arr left right threshold = merge a2 left mid right := by
  have hINT : INT_MAX = 2147483647 := rfl
  have hmid := midpoint_eq left right
    (by simp only [INT_MIN]; omega) (by omega) (by omega) (by omega)
  refine ⟨_, hmid, rfl, ?_⟩
  generalize hmd : left + (right - left) / 2 = mid at hmid
  have hlm : left ≤ mid := by omega
  have hmr : mid < right := by omega
  refine ⟨mergesort_par_local arr left mid threshold hn h0 (by omega) (by omega),
    mergesort_par_local arr (mid + 1) right threshold hn (by omega) (by omega) hr,
    mergesort_seq_local arr left mid hn h0 (by omega) (by omega),
    mergesort_seq_local arr (mid + 1) right hn (by omega) (by omega) hr, ?_⟩
  obtain ⟨e, hl, hr3⟩ := decompose arr left right h0 (by omega) hr
  have hsp := slice_split arr left mid right h0 (by omega) (by omega)
  have hlen1 := slice_length arr left mid h0 (by omega) (by omega)
  have hlen2 := slice_length arr (mid + 1) right (by omega) (by omega) hr
  have hpar := mergesort_par_eq arr left right threshold hn h0 (by omega) hr
  have hseq := mergesort_seq_eq arr left right hn h0 (by omega) hr
  rw [← hseq] at hpar
  rw [hpar]
  clear hpar hseq
  rw [hsp] at e hr3
  clear hsp
  generalize arr.take left.toNat = pre at e hl hr3
  generalize arr.drop (right + 1).toNat = post at e
  generalize slice arr left mid = s1 at e hr3 hlen1
  generalize slice arr (mid + 1) right = s2 at e hr3 hlen2
  rw [List.length_append] at hr3
  have e' : arr = pre ++ s1 ++ s2 ++ post := by rw [e]; simp
  subst e'
  obtain ⟨c1, c2, c3, c4⟩ := halves_commute_decomp threshold pre s1 s2 post left mid right hn hl
    (by omega) (by push_cast at hr3; omega)
  suffices key : mergesort_seq (pre ++ s1 ++ s2 ++ post) left right
      = merge (pre ++ s1.insertionSort (· ≤ ·) ++ s2.insertionSort (· ≤ ·) ++ post)
          left mid right from ⟨_, c1, c2, c3, c4, key, key⟩
  have hc : chk (mid + 1) = some (mid + 1) := by
    apply chk_eq_some <;> simp only [INT_MIN, INT_MAX] <;>
      simp only [List.length_append, Nat.cast_add] at hn <;> omega
  rw [mergesort_seq_unfold _ hlt hmid]
  cases h1 : mergesort_seq (pre ++ s1 ++ s2 ++ post) left mid with
  | none => rw [h1] at c3; simp at c3
  | some a1 =>
    rw [h1] at c3
    simp only [Option.some_bind, hc] at c3 ⊢
    rw [c3]
    rfl

theorem halves_independent_witness :
    ((([5, 3, 8, 1, 9, 2] : List Int).length : Int) ≤ INT_MAX ∧ (0 : Int) ≤ 1 ∧
      (1 : Int) < 4 ∧ (4 : Int) < ([5, 3, 8, 1, 9, 2] : List Int).length) ∧
    ∃ mid, midpoint 1 4 = some mid ∧ mid = 1 + (4 - 1) / 2 ∧
      local_to (fun a => mergesort_par a 1 mid 2) [5, 3, 8, 1, 9, 2] 1 mid ∧
      local_to (fun a => mergesort_par a (mid + 1) 4 2) [5, 3, 8, 1, 9, 2] (mid + 1) 4 ∧
      local_to (fun a => mergesort_seq a 1 mid) [5, 3, 8, 1, 9, 2] 1 mid ∧
      local_to (fun a => mergesort_seq a (mid + 1) 4) [5, 3, 8, 1, 9, 2] (mid + 1) 4 ∧
      ∃ a2,
        (mergesort_par [5, 3, 8, 1, 9, 2] 1 mid 2).bind
          (fun a => mergesort_par a (mid + 1) 4 2) = some a2 ∧
        (mergesort_par [5, 3, 8, 1, 9, 2] (mid + 1) 4 2).bind
          (fun a => mergesort_par a 1 mid 2) = some a2 ∧
        (mergesort_seq [5, 3, 8, 1, 9, 2] 1 mid).bind
          (fun a => mergesort_seq a (mid + 1) 4) = some a2 ∧
        (mergesort_seq [5, 3, 8, 1, 9, 2] (mid + 1) 4).bind
          (fun a => mergesort_seq a 1 mid) = some a2 ∧
        mergesort_seq [5, 3, 8, 1, 9, 2] 1 4 = merge a2 1 mid 4 ∧
        mergesort_par [5, 3, 8, 1, 9, 2] 1 4 2 = merge a2 1 mid 4 :=
  ⟨by decide, halves_independent [5, 3, 8, 1, 9, 2] 1 4 2 (by decide) (by decide) (by decide)
    (by decide)⟩

end MergeSortC
